import Mathlib

/-!
# Verification of the tcli protocol layer

A shallow embedding, in Lean 4, of the core data structures and parsing
routines of the `tcli` command-line tool, together with proofs about them:

* `tcli/command_response.py` — the response ledger (`CmdResponse`): rows of
  expected/received request uids, released to the display strictly in row
  order (`SetCommandRow`, `SetRequest`, `AddResponse`, `GetRow`).
* `tcli/command_parser.py` — the command grammar (`CommandParser`):
  registration (`RegisterCommand`, `UnRegisterCommand`), command-line
  parsing (`_CommandExpand`, `ParseCommandLine` with shlex-style argument
  splitting), pipe extraction (`ExtractPipe`) and inline-override
  extraction (`ExtractInlineCommands`).
* `tcli/tcli_lib.py` — the dispatch orchestrator tail (`Callback`,
  `CmdRequests` timeout handling) and the inline-override overlay session
  (`__copy__`, buffer sharing via `text_buffer.py`).

Python dictionaries are embedded as association lists with
replace-in-place insertion (CPython dict semantics: assignment to an
existing key keeps its position; `len` counts distinct keys, which the
embedding preserves because all reachable states are built through
`ainsert`).  A dictionary access that would raise `KeyError` in Python is
modelled by `Option`/`none`, propagated through every operation that can
reach it.
-/

namespace Tcli

/-! ## Association lists with Python-dict insertion semantics -/

/-- Lookup of a key in an association list (Python `d[k]` / `d.get(k)`). -/
def alookup {α β : Type} [DecidableEq α] : List (α × β) → α → Option β
  | [], _ => none
  | (k, v) :: rest, key => if k = key then some v else alookup rest key

/-- Python `k in d`. -/
def acontains {α β : Type} [DecidableEq α] (l : List (α × β)) (key : α) : Bool :=
  (alookup l key).isSome

/-- Python `d[k] = v`: replaces the value in place if the key is present,
otherwise appends the new binding (CPython insertion-order semantics). -/
def ainsert {α β : Type} [DecidableEq α] : List (α × β) → α → β → List (α × β)
  | [], key, v => [(key, v)]
  | (k, w) :: rest, key, v =>
      if k = key then (k, v) :: rest else (k, w) :: ainsert rest key v

/-- Python `del d[k]`: removes the first binding of the key (the only one,
when keys are distinct). -/
def aerase {α β : Type} [DecidableEq α] : List (α × β) → α → List (α × β)
  | [], _ => []
  | (k, w) :: rest, key => if k = key then rest else (k, w) :: aerase rest key

theorem alookup_ainsert_self {α β : Type} [DecidableEq α]
    (l : List (α × β)) (k : α) (v : β) : alookup (ainsert l k v) k = some v := by
  induction l with
  | nil => simp [ainsert, alookup]
  | cons hd tl ih =>
      obtain ⟨k', w⟩ := hd
      by_cases h : k' = k <;> simp [ainsert, alookup, h, ih]

theorem alookup_ainsert_ne {α β : Type} [DecidableEq α]
    (l : List (α × β)) (k k' : α) (v : β) (h : k ≠ k') :
    alookup (ainsert l k v) k' = alookup l k' := by
  induction l with
  | nil => simp [ainsert, alookup, h]
  | cons hd tl ih =>
      obtain ⟨k₀, w⟩ := hd
      by_cases h0 : k₀ = k
      · subst h0; simp [ainsert, alookup, h]
      · simp only [ainsert, if_neg h0, alookup]
        by_cases h1 : k₀ = k' <;> simp [h1, ih]

theorem length_ainsert_ge {α β : Type} [DecidableEq α]
    (l : List (α × β)) (k : α) (v : β) : l.length ≤ (ainsert l k v).length := by
  induction l with
  | nil => simp [ainsert]
  | cons hd tl ih =>
      obtain ⟨k', w⟩ := hd
      by_cases h : k' = k <;> simp [ainsert, h] <;> omega

/-! ## `command_response.py` — the response ledger

`CmdResponse` stores, per command row, the uids of the requests that were
sent (`_row_index`), the uids of the responses received so far
(`_row_response`), and the client-side pipe string (`_pipe`); plus a
uid → row index (`_uid_index`), a uid → response store (`_results`, whose
values start out as the placeholder `''`, modelled `none`), a cursor
(`_current_row`), a response counter (`_response_count`) and the
single-fire completion event (`done`).  The `tqdm` progress bar and the
logging calls are display-only and not modelled; the class-wide lock
serialises every operation, so each operation is a plain function of the
state. -/

/-- `inventory_base.Response`: the reply object delivered to the callback.
Only `uid` is inspected by the ledger. -/
structure Response where
  uid : Nat
  device_name : String
  command : String
  data : String
  error : String
  deriving DecidableEq, Repr

/-- The fields of `command_response.CmdResponse` (`__init__`). -/
structure CmdResponse where
  pipe : List (Nat × String)
  results : List (Nat × Option Response)
  row_index : List (Nat × List Nat)
  row_response : List (Nat × List Nat)
  uid_index : List (Nat × Nat)
  current_row : Nat
  response_count : Nat
  done : Bool
  deriving DecidableEq, Repr

/-- `CmdResponse.__init__`: all maps empty, cursor and counter zero, the
`done` event unset. -/
def initCmdResponse : CmdResponse :=
  { pipe := [], results := [], row_index := [], row_response := [],
    uid_index := [], current_row := 0, response_count := 0, done := false }

/-- `CmdResponse.SetCommandRow(command_row, pipe)`: registers an empty
expected list, an empty received list and the pipe string for the row. -/
def SetCommandRow (st : CmdResponse) (command_row : Nat) (pipe : String) :
    CmdResponse :=
  { st with
    row_index := ainsert st.row_index command_row [],
    row_response := ainsert st.row_response command_row [],
    pipe := ainsert st.pipe command_row pipe }

/-- `CmdResponse.SetRequest(command_row, request_uid)`: stores the `''`
placeholder for the uid, maps the uid to its row, and appends the uid to
the row's expected list.  `none` models the `KeyError` raised when the
row was never initialised with `SetCommandRow`. -/
def SetRequest (st : CmdResponse) (command_row request_uid : Nat) :
    Option CmdResponse :=
  match alookup st.row_index command_row with
  | none => none
  | some expected =>
      some { st with
        results := ainsert st.results request_uid none,
        uid_index := ainsert st.uid_index request_uid command_row,
        row_index := ainsert st.row_index command_row (expected ++ [request_uid]) }

/-- `CmdResponse.AddResponse(response)`: an unknown uid is discarded with
`False` and no state change; a known uid stores the response, appends the
uid to its row's received list, bumps the counter and returns `True`.
`none` models the `KeyError` on a state where the uid is indexed but its
row's received list is missing (unreachable through the API). -/
def AddResponse (st : CmdResponse) (response : Response) :
    Option (CmdResponse × Bool) :=
  match alookup st.uid_index response.uid with
  | none => some (st, false)
  | some command_row =>
      match alookup st.row_response command_row with
      | none => none
      | some received =>
          some ({ st with
            results := ainsert st.results response.uid (some response),
            row_response := ainsert st.row_response command_row
              (received ++ [response.uid]),
            response_count := st.response_count + 1 }, true)

/-- `CmdResponse.GetRow()`: if the cursor's row has no received list the
ledger is past its rows (or the row was never registered) — `done` fires
iff every stored result has been counted, and nothing is returned.
Otherwise the row is released iff its received list has grown to the
length of its expected list; release returns (received uids, pipe) and
advances the cursor. -/
def GetRow (st : CmdResponse) : Option (CmdResponse × Option (List Nat × String)) :=
  match alookup st.row_response st.current_row with
  | none =>
      if st.results.length = st.response_count then
        some ({ st with done := true }, none)
      else
        some (st, none)
  | some received =>
      match alookup st.row_index st.current_row with
      | none => none
      | some expected =>
          if received.length = expected.length then
            match alookup st.pipe st.current_row with
            | none => none
            | some p =>
                some ({ st with current_row := st.current_row + 1 },
                  some (received, p))
          else
            some (st, none)

/-! ## Ledger traces

`CmdRequests` (tcli_lib.py) registers one row per command string, in order
`0, 1, 2, …`, and one request uid per (row, target); replies then arrive in
arbitrary order through `Callback`, which calls `AddResponse` and polls
`GetRow`.  A trace interleaves deliveries and polls arbitrarily; the run
collects each released row as (row id at release, received uids, pipe). -/

/-- One event against the ledger: a reply delivery or a `GetRow` poll. -/
inductive LedgerEv where
  | deliver (response : Response)
  | poll
  deriving DecidableEq, Repr

/-- A single event step; a poll that releases a row reports the row id the
cursor held when it was released. -/
def ledgerStep (st : CmdResponse) :
    LedgerEv → Option (CmdResponse × Option (Nat × List Nat × String))
  | .deliver r => (AddResponse st r).map (fun x => (x.1, none))
  | .poll =>
      (GetRow st).map (fun x =>
        (x.1, x.2.map (fun row => (st.current_row, row.1, row.2))))

/-- Runs a trace of events, collecting the released rows in order. -/
def runLedger (st : CmdResponse) :
    List LedgerEv → Option (CmdResponse × List (Nat × List Nat × String))
  | [] => some (st, [])
  | e :: evs =>
      match ledgerStep st e with
      | none => none
      | some (st₁, rel) =>
          (runLedger st₁ evs).map (fun x => (x.1, rel.toList ++ x.2))

/-- Registers one row: `SetCommandRow` followed by `SetRequest` for each
uid, exactly as the per-command loop of `CmdRequests` does. -/
def registerRow (st : CmdResponse) (row : Nat) (pipe : String)
    (uids : List Nat) : Option CmdResponse :=
  uids.foldlM (fun s uid => SetRequest s row uid) (SetCommandRow st row pipe)

/-- Registers a batch of commands as rows `row, row+1, …`. -/
def registerBatchAux (st : CmdResponse) (row : Nat) :
    List (String × List Nat) → Option CmdResponse
  | [] => some st
  | (pipe, uids) :: rest =>
      match registerRow st row pipe uids with
      | none => none
      | some st₁ => registerBatchAux st₁ (row + 1) rest

/-- A fresh ledger loaded with a batch: one (pipe, uids) pair per command
string, rows numbered from 0 — the `CmdRequests` registration loop. -/
def registerBatch (batch : List (String × List Nat)) : Option CmdResponse :=
  registerBatchAux initCmdResponse 0 batch

theorem AddResponse_current_row (st : CmdResponse) (r : Response)
    (st' : CmdResponse) (b : Bool) (h : AddResponse st r = some (st', b)) :
    st'.current_row = st.current_row := by
  unfold AddResponse at h
  cases h₁ : alookup st.uid_index r.uid with
  | none =>
      simp only [h₁, Option.some.injEq, Prod.mk.injEq] at h
      rw [← h.1]
  | some row =>
      simp only [h₁] at h
      cases h₂ : alookup st.row_response row with
      | none => simp only [h₂] at h; exact Option.noConfusion h
      | some received =>
          simp only [h₂, Option.some.injEq, Prod.mk.injEq] at h
          rw [← h.1]

theorem GetRow_none_current_row (st st' : CmdResponse)
    (h : GetRow st = some (st', none)) : st'.current_row = st.current_row := by
  unfold GetRow at h
  cases h₁ : alookup st.row_response st.current_row with
  | none =>
      simp only [h₁] at h
      by_cases hc : st.results.length = st.response_count <;>
        · simp only [hc, if_true, if_false, Option.some.injEq, Prod.mk.injEq] at h
          rw [← h.1]
  | some received =>
      simp only [h₁] at h
      cases h₂ : alookup st.row_index st.current_row with
      | none => simp only [h₂] at h; exact Option.noConfusion h
      | some expected =>
          simp only [h₂] at h
          by_cases hc : received.length = expected.length
          · simp only [hc, if_true] at h
            cases h₃ : alookup st.pipe st.current_row with
            | none => simp only [h₃] at h; exact Option.noConfusion h
            | some p =>
                simp only [h₃, Option.some.injEq, Prod.mk.injEq] at h
                exact Option.noConfusion h.2
          · simp only [hc, if_false, Option.some.injEq, Prod.mk.injEq] at h
            rw [← h.1]

theorem GetRow_some_current_row (st st' : CmdResponse)
    (row : List Nat × String) (h : GetRow st = some (st', some row)) :
    st'.current_row = st.current_row + 1 := by
  unfold GetRow at h
  cases h₁ : alookup st.row_response st.current_row with
  | none =>
      simp only [h₁] at h
      by_cases hc : st.results.length = st.response_count <;>
        · simp only [hc, if_true, if_false, Option.some.injEq,
            Prod.mk.injEq] at h
          exact Option.noConfusion h.2
  | some received =>
      simp only [h₁] at h
      cases h₂ : alookup st.row_index st.current_row with
      | none => simp only [h₂] at h; exact Option.noConfusion h
      | some expected =>
          simp only [h₂] at h
          by_cases hc : received.length = expected.length
          · simp only [hc, if_true] at h
            cases h₃ : alookup st.pipe st.current_row with
            | none => simp only [h₃] at h; exact Option.noConfusion h
            | some p =>
                simp only [h₃, Option.some.injEq, Prod.mk.injEq] at h
                rw [← h.1]
          · simp only [hc, if_false, Option.some.injEq, Prod.mk.injEq] at h
            exact Option.noConfusion h.2

/-- Core release invariant: from any state, any event trace releases rows
with consecutive ids starting at the current cursor, and advances the
cursor by the number of releases. -/
theorem runLedger_released (evs : List LedgerEv) :
    ∀ st st' released, runLedger st evs = some (st', released) →
      released.map (fun r => r.1) =
        List.range' st.current_row released.length ∧
      st'.current_row = st.current_row + released.length := by
  induction evs with
  | nil =>
      intro st st' released h
      simp [runLedger] at h
      obtain ⟨h₁, h₂⟩ := h
      subst h₁; subst h₂
      simp
  | cons e evs ih =>
      intro st st' released h
      simp only [runLedger] at h
      cases hstep : ledgerStep st e with
      | none => rw [hstep] at h; simp at h
      | some p =>
          obtain ⟨st₁, rel⟩ := p
          rw [hstep] at h
          simp only [Option.map_eq_some'] at h
          obtain ⟨⟨st₂, rel₂⟩, hrun, heq⟩ := h
          obtain ⟨ih₁, ih₂⟩ := ih st₁ st₂ rel₂ hrun
          cases e with
          | deliver r =>
              simp only [ledgerStep, Option.map_eq_some'] at hstep
              obtain ⟨⟨st₃, b⟩, hadd, heq₂⟩ := hstep
              have hcur := AddResponse_current_row st r st₃ b hadd
              simp only [Prod.mk.injEq] at heq₂
              obtain ⟨he₁, he₂⟩ := heq₂
              subst he₁; subst he₂
              cases heq
              simp only [Option.toList_none, List.nil_append]
              refine ⟨?_, ?_⟩
              · rw [ih₁, hcur]
              · rw [ih₂, hcur]
          | poll =>
              simp only [ledgerStep, Option.map_eq_some'] at hstep
              obtain ⟨⟨st₃, b⟩, hget, heq₂⟩ := hstep
              simp only [Prod.mk.injEq] at heq₂
              obtain ⟨he₁, he₂⟩ := heq₂
              subst he₁
              cases b with
              | none =>
                  have hcur := GetRow_none_current_row st st₃ hget
                  simp only [Option.map_none'] at he₂
                  subst he₂
                  cases heq
                  simp only [Option.toList_none, List.nil_append]
                  refine ⟨?_, ?_⟩
                  · rw [ih₁, hcur]
                  · rw [ih₂, hcur]
              | some row =>
                  have hcur := GetRow_some_current_row st st₃ row hget
                  simp only [Option.map_some'] at he₂
                  subst he₂
                  cases heq
                  simp only [Option.toList_some, List.singleton_append,
                    List.map_cons, List.length_cons]
                  refine ⟨?_, ?_⟩
                  · rw [List.range'_succ]
                    refine congrArg (fun t => st.current_row :: t) ?_
                    rw [ih₁, hcur]
                  · rw [ih₂, hcur]
                    omega

theorem registerRow_frame (uids : List Nat) :
    ∀ st row pipe st', registerRow st row pipe uids = some st' →
      st'.current_row = st.current_row ∧ st'.done = st.done ∧
        st'.response_count = st.response_count := by
  have aux : ∀ (l : List Nat) (s : CmdResponse) (row : Nat) (s' : CmdResponse),
      l.foldlM (fun s uid => SetRequest s row uid) s = some s' →
      s'.current_row = s.current_row ∧ s'.done = s.done ∧
        s'.response_count = s.response_count := by
    intro l
    induction l with
    | nil =>
        intro s row s' h
        simp [List.foldlM] at h
        subst h
        exact ⟨rfl, rfl, rfl⟩
    | cons uid rest ih =>
        intro s row s' h
        simp only [List.foldlM_cons] at h
        cases hreq : SetRequest s row uid with
        | none => rw [hreq] at h; simp at h
        | some s₁ =>
            rw [hreq] at h
            obtain ⟨h₁, h₂, h₃⟩ := ih s₁ row s' h
            unfold SetRequest at hreq
            cases hl : alookup s.row_index row with
            | none => rw [hl] at hreq; simp at hreq
            | some e =>
                rw [hl] at hreq
                simp at hreq
                subst hreq
                exact ⟨h₁, h₂, h₃⟩
  intro st row pipe st' h
  unfold registerRow at h
  obtain ⟨h₁, h₂, h₃⟩ := aux uids (SetCommandRow st row pipe) row st' h
  simp [SetCommandRow] at h₁ h₂ h₃
  exact ⟨h₁, h₂, h₃⟩

theorem registerBatchAux_frame (batch : List (String × List Nat)) :
    ∀ st row st', registerBatchAux st row batch = some st' →
      st'.current_row = st.current_row ∧ st'.done = st.done ∧
        st'.response_count = st.response_count := by
  induction batch with
  | nil =>
      intro st row st' h
      simp [registerBatchAux] at h; subst h; exact ⟨rfl, rfl, rfl⟩
  | cons hd rest ih =>
      intro st row st' h
      obtain ⟨pipe, uids⟩ := hd
      simp only [registerBatchAux] at h
      cases hrow : registerRow st row pipe uids with
      | none => rw [hrow] at h; simp at h
      | some st₁ =>
          rw [hrow] at h
          obtain ⟨h₁, h₂, h₃⟩ := ih st₁ (row + 1) st' h
          obtain ⟨h₄, h₅, h₆⟩ := registerRow_frame uids st row pipe st₁ hrow
          exact ⟨h₁.trans h₄, h₂.trans h₅, h₃.trans h₆⟩

/-- C1: for every registered batch and every interleaving of reply
deliveries and polls, the sequence of released row ids is exactly
`0, 1, …, k-1`: rows release strictly in ascending id order, each row at
most once, and no row releases before every earlier row has been
released — even if a later row became complete first (its poll simply
returns nothing until its turn). -/
theorem ledger_releases_in_ascending_row_order
    (batch : List (String × List Nat)) (evs : List LedgerEv)
    (st₀ st' : CmdResponse) (released : List (Nat × List Nat × String))
    (hreg : registerBatch batch = some st₀)
    (hrun : runLedger st₀ evs = some (st', released)) :
    released.map (fun r => r.1) = List.range released.length := by
  have hcur : st₀.current_row = 0 :=
    (registerBatchAux_frame batch initCmdResponse 0 st₀ hreg).1
  have h := (runLedger_released evs st₀ st' released hrun).1
  rw [h, hcur]
  exact (List.range_eq_range' released.length).symm

/-! ### Concrete ledger runs

A two-row batch shaped like the one in `command_response_test.py`: row 0
expects uids 3 and 4, row 1 expects uids 1 and 2.  The trace delivers the
replies for row 1 first; polls release nothing until row 0 also completes,
then release row 0 before row 1. -/

def mkResponse (uid : Nat) : Response :=
  { uid := uid, device_name := "device_name", command := "command",
    data := "data", error := "error" }

def c1Batch : List (String × List Nat) :=
  [("boohoo", [3, 4]), ("testing", [1, 2])]

def c1Evs : List LedgerEv :=
  [.deliver (mkResponse 1), .poll, .deliver (mkResponse 2), .poll,
   .deliver (mkResponse 3), .poll, .deliver (mkResponse 4), .poll, .poll]

def c1St : CmdResponse := (registerBatch c1Batch).getD initCmdResponse

def c1Out : CmdResponse × List (Nat × List Nat × String) :=
  (runLedger c1St c1Evs).getD (initCmdResponse, [])

/-- Witness for C1 at a concrete batch and trace: row 1 completes before
row 0, yet the released sequence is row 0 (uids 3, 4) then row 1
(uids 1, 2), i.e. row ids `[0, 1] = List.range 2`. -/
theorem ledger_releases_in_ascending_row_order_witness :
    registerBatch c1Batch = some c1St ∧
    runLedger c1St c1Evs = some c1Out ∧
    c1Out.2 = [(0, [3, 4], "boohoo"), (1, [1, 2], "testing")] ∧
    c1Out.2.map (fun r => r.1) = List.range c1Out.2.length :=
  ⟨by decide, by decide, by decide,
    ledger_releases_in_ascending_row_order c1Batch c1Evs c1St c1Out.1 c1Out.2
      (by decide) (by decide)⟩

/-! ### C2: duplicate deliveries are **not** idempotent

`AddResponse` guards only on `uid in self._uid_index`; a duplicate
delivery of a registered uid appends the uid to `_row_response` a second
time and bumps `_response_count` again, and `GetRow` compares the
*lengths* of the received and expected lists, never their membership. -/

/-- A one-row ledger: row 0 with pipe `"p"` expects uids 1 and 2. -/
def c2St0 : CmdResponse := (registerBatch [("p", [1, 2])]).getD initCmdResponse

def c2r1 : Response := mkResponse 1

/-- The ledger after delivering uid 1 twice. -/
def c2Twice : Option CmdResponse :=
  (AddResponse c2St0 c2r1).bind fun x => (AddResponse x.1 c2r1).map fun y => y.1

/-- Counterexample to C2: on a row expecting uids `[1, 2]`, delivering
uid 1 twice is accepted both times, leaves the received list `[1, 1]`
(uid 1 double-counted), bumps the counter to 2, and `GetRow` then
releases the row — prematurely, since uid 2 was never received and the
received and expected lists differ as sets.  This refutes both the
idempotence and the complete-iff-membership parts of the claim. -/
theorem AddResponse_idempotence_counterexample :
    (AddResponse c2St0 c2r1).map (fun x => x.2) = some true ∧
    c2Twice.map (fun st => alookup st.row_response 0) = some (some [1, 1]) ∧
    c2Twice.map (fun st => st.response_count) = some 2 ∧
    (c2Twice.bind GetRow).map (fun x => x.2) = some (some ([1, 1], "p")) ∧
    alookup c2St0.row_index 0 = some [1, 2] := by
  decide

/-- C2 as amended: `AddResponse` is not idempotent — every delivery of a
registered uid, repeated or not, appends the uid to the row's received
list and bumps the global counter, so a duplicate is double-counted; and
`GetRow` releases the cursor's row iff the received list's *length*
equals the expected list's length (membership is never compared), so
duplicates can release a row prematurely. -/
theorem AddResponse_duplicate_double_counts_and_complete_by_length
    (st : CmdResponse) (response : Response) (command_row : Nat)
    (received : List Nat)
    (h₁ : alookup st.uid_index response.uid = some command_row)
    (h₂ : alookup st.row_response command_row = some received) :
    (∃ st₂, ((AddResponse st response).bind fun x => AddResponse x.1 response)
        = some (st₂, true) ∧
      alookup st₂.row_response command_row
        = some (received ++ [response.uid, response.uid]) ∧
      st₂.response_count = st.response_count + 2) ∧
    (∀ s : CmdResponse, ∀ received' expected : List Nat, ∀ p : String,
      alookup s.row_response s.current_row = some received' →
      alookup s.row_index s.current_row = some expected →
      alookup s.pipe s.current_row = some p →
      (GetRow s = some ({ s with current_row := s.current_row + 1 },
          some (received', p)) ↔ received'.length = expected.length)) := by
  constructor
  · refine ⟨{ st with
        results := ainsert (ainsert st.results response.uid (some response))
          response.uid (some response),
        row_response := ainsert
          (ainsert st.row_response command_row (received ++ [response.uid]))
          command_row ((received ++ [response.uid]) ++ [response.uid]),
        response_count := st.response_count + 1 + 1 }, ?_, ?_, ?_⟩
    · unfold AddResponse
      simp only [h₁, h₂, Option.bind_some]
      simp [h₁, alookup_ainsert_self]
    · simp [alookup_ainsert_self, List.append_assoc]
    · show st.response_count + 1 + 1 = st.response_count + 2
      omega
  · intro s received' expected p g₁ g₂ g₃
    constructor
    · intro hrel
      unfold GetRow at hrel
      simp only [g₁, g₂, g₃] at hrel
      by_cases hlen : received'.length = expected.length
      · exact hlen
      · simp only [hlen, if_false, Option.some.injEq, Prod.mk.injEq] at hrel
        exact absurd hrel.2 (by simp)
    · intro hlen
      unfold GetRow
      simp only [g₁, g₂, g₃, hlen, if_true]

/-- Witness for the amended C2 at the concrete one-row ledger. -/
theorem AddResponse_duplicate_double_counts_witness :
    alookup c2St0.uid_index 1 = some 0 ∧
    alookup c2St0.row_response 0 = some [] ∧
    ((∃ st₂, ((AddResponse c2St0 c2r1).bind fun x => AddResponse x.1 c2r1)
        = some (st₂, true) ∧
      alookup st₂.row_response 0 = some ([] ++ [c2r1.uid, c2r1.uid]) ∧
      st₂.response_count = c2St0.response_count + 2) ∧
    (∀ s : CmdResponse, ∀ received' expected : List Nat, ∀ p : String,
      alookup s.row_response s.current_row = some received' →
      alookup s.row_index s.current_row = some expected →
      alookup s.pipe s.current_row = some p →
      (GetRow s = some ({ s with current_row := s.current_row + 1 },
          some (received', p)) ↔ received'.length = expected.length))) :=
  ⟨by decide, by decide,
    AddResponse_duplicate_double_counts_and_complete_by_length c2St0 c2r1 0 []
      (by decide) (by decide)⟩

/-! ### C3: stale uids are discarded without effect -/

/-- C3: `AddResponse` with an unregistered uid returns `False` and leaves
the entire ledger state — every row's received list, the stored results
and the global counter — unchanged (and raises nothing: the result is
`some`, never the `KeyError` case); with a registered uid it stores the
reply in `_results`, appends the uid to the row's received list, bumps
the global counter, and returns `True`. -/
theorem AddResponse_unknown_uid_rejected_known_uid_recorded
    (st : CmdResponse) (response : Response) :
    (alookup st.uid_index response.uid = none →
      AddResponse st response = some (st, false)) ∧
    (∀ command_row received,
      alookup st.uid_index response.uid = some command_row →
      alookup st.row_response command_row = some received →
      AddResponse st response = some ({ st with
        results := ainsert st.results response.uid (some response),
        row_response := ainsert st.row_response command_row
          (received ++ [response.uid]),
        response_count := st.response_count + 1 }, true)) := by
  constructor
  · intro h
    unfold AddResponse
    simp only [h]
  · intro command_row received h₁ h₂
    unfold AddResponse
    simp only [h₁, h₂]

/-- Witness for C3: uid 9 was never registered in the two-row ledger and
is rejected with the state untouched; uid 1 is registered for row 1 and
is recorded. -/
theorem AddResponse_unknown_uid_rejected_witness :
    alookup c1St.uid_index 9 = none ∧
    AddResponse c1St (mkResponse 9) = some (c1St, false) ∧
    alookup c1St.uid_index 1 = some 1 ∧
    alookup c1St.row_response 1 = some [] ∧
    AddResponse c1St (mkResponse 1) = some ({ c1St with
      results := ainsert c1St.results 1 (some (mkResponse 1)),
      row_response := ainsert c1St.row_response 1 ([] ++ [1]),
      response_count := c1St.response_count + 1 }, true) :=
  ⟨by decide,
    (AddResponse_unknown_uid_rejected_known_uid_recorded c1St (mkResponse 9)).1
      (by decide),
    by decide, by decide,
    (AddResponse_unknown_uid_rejected_known_uid_recorded c1St (mkResponse 1)).2
      1 [] (by decide) (by decide)⟩

/-! ## `command_parser.py` — the command registry and grammar

`CommandParser` is a `dict` mapping command names to `_Command` attribute
records.  The embedding keeps the dict as an association list (insertion
order matters for short-name expansion, which scans `for command_name in
self`).  The `default_value`, `handler` and `completer` attributes carry
functions and flag values that the parsing routines never inspect, so
they are not modelled. -/

/-- The parsing-relevant attributes of `CommandParser._Command`
(`RegisterCommand` keyword arguments). -/
structure Cmd where
  help_str : String
  short_name : String
  min_args : Nat
  max_args : Nat
  append : Bool
  inline : Bool
  raw_arg : Bool
  regexp : Bool
  toggle : Bool
  deriving DecidableEq, Repr

/-- A `CommandParser` instance: name → descriptor, in insertion order. -/
def Registry : Type := List (String × Cmd)

instance : DecidableEq Registry := by unfold Registry; infer_instance

/-- `CommandParser.RegisterCommand`: `self[command_name] = _Command({...})`. -/
def RegisterCommand (r : Registry) (command_name : String) (c : Cmd) : Registry :=
  ainsert r command_name c

/-- `CommandParser.UnRegisterCommand`: `if command_name in self: del
self[command_name]`. -/
def UnRegisterCommand (r : Registry) (command_name : String) : Registry :=
  if acontains r command_name then aerase r command_name else r

/-- `CommandParser.InlineOnly`: unregisters every descriptor whose
`inline` attribute is false. -/
def InlineOnly (r : Registry) : Registry :=
  r.filter (fun p => p.2.inline)

theorem acontains_false_not_key {α β : Type} [DecidableEq α]
    (l : List (α × β)) (key : α) (h : acontains l key = false) :
    ∀ p ∈ l, p.1 ≠ key := by
  induction l with
  | nil => intro p hp; simp at hp
  | cons hd tl ih =>
      obtain ⟨k, v⟩ := hd
      intro p hp
      simp only [acontains, alookup] at h
      by_cases hk : k = key
      · simp [hk] at h
      · simp only [if_neg hk] at h
        rcases List.mem_cons.mp hp with h₁ | h₂
        · subst h₁; exact hk
        · exact ih h p h₂

theorem aerase_eq_filter_of_nodup {α β : Type} [DecidableEq α]
    (l : List (α × β)) (key : α) (hnd : (l.map Prod.fst).Nodup) :
    aerase l key = l.filter (fun p => p.1 ≠ key) := by
  induction l with
  | nil => simp [aerase]
  | cons hd tl ih =>
      obtain ⟨k, v⟩ := hd
      simp only [List.map_cons, List.nodup_cons] at hnd
      obtain ⟨hk, hnd'⟩ := hnd
      by_cases hke : k = key
      · subst hke
        have hall : ∀ p ∈ tl, ¬ p.1 = k := fun p hp hc =>
          hk (hc ▸ List.mem_map_of_mem Prod.fst hp)
        simp only [aerase, if_pos rfl]
        symm
        rw [List.filter_cons]
        simp only [ne_eq, not_true_eq_false, decide_False, Bool.false_eq_true,
          if_false]
        exact List.filter_eq_self.mpr fun p hp => by simp [hall p hp]
      · simp only [aerase, if_neg hke]
        rw [ih hnd']
        rw [List.filter_cons]
        simp [hke]

/-- C10: `UnRegisterCommand` never raises (it is a total function): on an
unregistered name it is a no-op returning the registry unchanged, and on
a registered name (in a registry with distinct names, as every registry
built through `RegisterCommand` is) it removes exactly that name's
entry, keeping every other entry. -/
theorem UnRegisterCommand_noop_or_single_removal
    (r : Registry) (command_name : String) :
    (acontains r command_name = false → UnRegisterCommand r command_name = r) ∧
    ((r.map Prod.fst).Nodup →
      UnRegisterCommand r command_name =
        r.filter (fun p => p.1 ≠ command_name)) := by
  constructor
  · intro h
    unfold UnRegisterCommand
    simp [h]
  · intro hnd
    unfold UnRegisterCommand
    by_cases hc : acontains r command_name
    · simp only [hc, if_true]
      exact aerase_eq_filter_of_nodup r command_name hnd
    · simp only [Bool.not_eq_true] at hc
      simp only [hc, Bool.false_eq_true, if_false]
      have hall := acontains_false_not_key r command_name hc
      exact (List.filter_eq_self.mpr (fun p hp => by
        simp only [decide_eq_true_eq]; exact hall p hp)).symm

/-- The `boo` descriptor of `testParseCommandLine1`: 0 to 2 plain
arguments, no append, no regexp. -/
def booCmd : Cmd :=
  { help_str := "A help string.", short_name := "B", min_args := 0,
    max_args := 2, append := false, inline := false, raw_arg := false,
    regexp := false, toggle := false }

/-- An inline-capable `log` descriptor taking at most one argument. -/
def logCmd : Cmd :=
  { help_str := "", short_name := "", min_args := 0, max_args := 1,
    append := false, inline := true, raw_arg := false, regexp := false,
    toggle := false }

/-- A two-command registry for concrete runs. -/
def cRegistry : Registry :=
  RegisterCommand (RegisterCommand [] "boo" booCmd) "log" logCmd

/-- Witness for C10: removing an unknown name is a no-op; removing
`"log"` keeps only `"boo"`. -/
theorem UnRegisterCommand_noop_or_single_removal_witness :
    acontains cRegistry "zzz" = false ∧
    UnRegisterCommand cRegistry "zzz" = cRegistry ∧
    (cRegistry.map Prod.fst).Nodup ∧
    UnRegisterCommand cRegistry "log" =
      cRegistry.filter (fun p => p.1 ≠ "log") :=
  ⟨by decide,
    (UnRegisterCommand_noop_or_single_removal cRegistry "zzz").1 (by decide),
    by decide,
    (UnRegisterCommand_noop_or_single_removal cRegistry "log").2 (by decide)⟩

/-! ### `_CommandExpand` and `ParseCommandLine`

`ParseCommandLine` splits a command line into (name, args, append flag):
`_CommandExpand` peels off the name (expanding a single-character short
name and a `+` append marker), then the arguments are shlex-split and
validated against the descriptor. -/

deriving instance DecidableEq for Except

/-- Python `str.strip()` whitespace set. -/
def pyWhitespace (c : Char) : Bool :=
  c = ' ' || c = '\t' || c = '\n' || c = '\r' || c = '\x0b' || c = '\x0c'

/-- Python `str.strip()` on a character list. -/
def pyStrip (l : List Char) : List Char :=
  ((l.dropWhile pyWhitespace).reverse.dropWhile pyWhitespace).reverse

/-- `line.index(' ')` split: everything before the first space, and the
remainder starting at the space (Python `line[:sep], line[sep:]`);
`none` when the line holds no space. -/
def splitAtSpace : List Char → Option (List Char × List Char)
  | [] => none
  | c :: cs =>
      if c = ' ' then some ([], c :: cs)
      else (splitAtSpace cs).map (fun p => (c :: p.1, p.2))

/-- `CommandParser._CommandExpand._ExpandShortCommand`: the first
registered command (in insertion order) whose `short_name` equals the
given character. -/
def _ExpandShortCommand (r : Registry) (c : Char) : Option String :=
  (r.find? (fun p => p.2.short_name = String.mk [c])).map (fun p => p.1)

/-- `CommandParser._CommandExpand`: strips the command name and the `+`
append suffix from the line.  A leading registered short name expands to
the long name (with an immediately following `+` re-attached); otherwise
the name is everything before the first space.  The remainder is
stripped, and a trailing `+` on the name sets the append flag.  The
empty line never reaches this function (`ParseCommandLine` raises
first); it is mapped to junk. -/
def _CommandExpand (r : Registry) (line : List Char) :
    String × List Char × Bool :=
  match line with
  | [] => ("", [], false)
  | c :: rest =>
      let step : List Char × List Char :=
        match _ExpandShortCommand r c with
        | some long =>
            match rest with
            | '+' :: rest₂ => (long.toList ++ ['+'], rest₂)
            | _ => (long.toList, rest)
        | none =>
            match splitAtSpace (c :: rest) with
            | some (before, after) => (before, after)
            | none => (c :: rest, [])
      let line₁ := pyStrip step.2
      match step.1.reverse with
      | '+' :: nameRev => (String.mk nameRev.reverse, line₁, true)
      | _ => (String.mk step.1, line₁, false)

/-! ### `shlex.split` (POSIX mode, whitespace_split, no comments)

The mode taken by `shlex.split(line)`: tokens separated by whitespace;
`'…'` spans are literal; `"…"` spans allow `\` to escape only `\` and
`"` (a backslash before any other character is kept together with it);
outside quotes `\` escapes any single character.  An unterminated quote
raises `No closing quotation`, a trailing escape raises `No escaped
character` — `ValueError`s, surfaced as the `Except.error` case. -/

/-- `shlex.whitespace`. -/
def shlexWhitespace (c : Char) : Bool :=
  c = ' ' || c = '\t' || c = '\r' || c = '\n'

/-- The shlex reader state: outside any quote, after an escape char,
inside single quotes, inside double quotes, after an escape char inside
double quotes. -/
inductive ShMode where
  | norm | esc | squote | dquote | dqesc
  deriving DecidableEq, Repr

/-- One pass of the `shlex` state machine.  `started` records whether a
token is in progress (so `''` yields an empty token), `acc` the current
token, `toks` the finished tokens. -/
def shlexAux : List Char → ShMode → Bool → List Char → List String →
    Except String (List String)
  | [], .norm, started, acc, toks =>
      .ok (if started then toks ++ [String.mk acc] else toks)
  | [], .esc, _, _, _ => .error "No escaped character"
  | [], .dqesc, _, _, _ => .error "No escaped character"
  | [], .squote, _, _, _ => .error "No closing quotation"
  | [], .dquote, _, _, _ => .error "No closing quotation"
  | c :: cs, .norm, started, acc, toks =>
      if shlexWhitespace c then
        if started then shlexAux cs .norm false [] (toks ++ [String.mk acc])
        else shlexAux cs .norm false [] toks
      else if c = '\'' then shlexAux cs .squote true acc toks
      else if c = '"' then shlexAux cs .dquote true acc toks
      else if c = '\\' then shlexAux cs .esc true acc toks
      else shlexAux cs .norm true (acc ++ [c]) toks
  | c :: cs, .esc, _, acc, toks => shlexAux cs .norm true (acc ++ [c]) toks
  | c :: cs, .squote, _, acc, toks =>
      if c = '\'' then shlexAux cs .norm true acc toks
      else shlexAux cs .squote true (acc ++ [c]) toks
  | c :: cs, .dquote, _, acc, toks =>
      if c = '"' then shlexAux cs .norm true acc toks
      else if c = '\\' then shlexAux cs .dqesc true acc toks
      else shlexAux cs .dquote true (acc ++ [c]) toks
  | c :: cs, .dqesc, _, acc, toks =>
      if c = '"' || c = '\\' then shlexAux cs .dquote true (acc ++ [c]) toks
      else shlexAux cs .dquote true (acc ++ ['\\', c]) toks

/-- `shlex.split` on a character list. -/
def shlexSplit (l : List Char) : Except String (List String) :=
  shlexAux l .norm false [] []

/-- `re.search(r'\W', arg)` finds nothing: every character of the
argument is a word character (ASCII reading of `\W`). -/
def wordOnly (s : String) : Bool :=
  s.toList.all (fun c => c.isAlphanum || c = '_')

/-- `CommandParser.ParseCommandLine`: expands the command name, rejects
unregistered names, returns the raw remainder unparsed for `raw_arg`
descriptors, rejects unsupported append, shlex-splits the arguments
(`ValueError` becomes `ParseError`), enforces the `[min_args, max_args]`
argument-count window, and for non-regexp non-raw descriptors rejects
any argument with a non-word character. -/
def ParseCommandLine (r : Registry) (line : String) :
    Except String (String × List String × Bool) :=
  if line.isEmpty then .error "Missing escape command." else
  let expanded := _CommandExpand r line.toList
  let command_name := expanded.1
  let rest := expanded.2.1
  let append := expanded.2.2
  match alookup r command_name with
  | none => .error ("Invalid escape command " ++ command_name ++ ".")
  | some d =>
      if d.raw_arg then .ok (command_name, [String.mk rest], append)
      else if append && !d.append then
        .error ("Command " ++ command_name ++ " does not support append mode.")
      else
        match shlexSplit rest with
        | .error e =>
            .error ("Invalid string could not be parsed into arguments: " ++ e)
        | .ok arguments =>
            if arguments.length < d.min_args || d.max_args < arguments.length
            then .error "Invalid number of arguments."
            else if !d.regexp && !d.raw_arg &&
                arguments.any (fun a => !(wordOnly a)) then
              .error "Arguments with alphanumeric characters only."
            else .ok (command_name, arguments, append)

/-- Counterexample to C6: with descriptor `boo` accepting 0 to 2
arguments (`regexp` false, as registered in `testParseCommandLine1`),
the line `boo ^.*` carries exactly one argument — inside the
`[min_args, max_args]` window — yet `ParseCommandLine` raises
`ParseError`, because the argument contains non-alphanumeric
characters.  So arg counts inside the window do not always succeed. -/
theorem ParseCommandLine_in_range_counterexample :
    alookup cRegistry "boo" = some booCmd ∧
    booCmd.min_args = 0 ∧ booCmd.max_args = 2 ∧
    _CommandExpand cRegistry ("boo ^.*".toList) = ("boo", "^.*".toList, false) ∧
    shlexSplit ("^.*".toList) = .ok ["^.*"] ∧
    (0 ≤ 1 ∧ 1 ≤ 2) ∧
    ParseCommandLine cRegistry "boo ^.*" =
      .error "Arguments with alphanumeric characters only." := by
  decide

/-- C6 as amended: for a registered non-raw descriptor, when the append
marker is supported (or absent) and the remainder shlex-splits cleanly,
an argument count outside `[min_args, max_args]` always raises
`ParseError`, and a count inside the window succeeds provided the
remaining validation passes: the descriptor allows regexps or every
argument is purely alphanumeric/underscore. -/
theorem ParseCommandLine_arg_count_window (r : Registry) (line : String)
    (name : String) (rest : List Char) (app : Bool) (d : Cmd)
    (args : List String)
    (hne : line.isEmpty = false)
    (hexp : _CommandExpand r line.toList = (name, rest, app))
    (hlook : alookup r name = some d)
    (hraw : d.raw_arg = false)
    (happ : app = true → d.append = true)
    (hsplit : shlexSplit rest = .ok args) :
    ((args.length < d.min_args ∨ d.max_args < args.length) →
      ParseCommandLine r line = .error "Invalid number of arguments.") ∧
    (d.min_args ≤ args.length → args.length ≤ d.max_args →
      (d.regexp = true ∨ ∀ a ∈ args, wordOnly a = true) →
      ParseCommandLine r line = .ok (name, args, app)) := by
  have happ₂ : (app && !d.append) = false := by
    cases happ₃ : app
    · rfl
    · simp [happ happ₃]
  constructor
  · intro hout
    unfold ParseCommandLine
    simp only [hne, Bool.false_eq_true, if_false, hexp, hlook, hraw,
      happ₂, hsplit]
    have hcond : (decide (args.length < d.min_args) ||
        decide (d.max_args < args.length)) = true := by
      rcases hout with h | h <;> simp [h]
    simp [hcond]
  · intro hmin hmax hword
    unfold ParseCommandLine
    simp only [hne, Bool.false_eq_true, if_false, hexp, hlook, hraw,
      happ₂, hsplit]
    have hcond : (decide (args.length < d.min_args) ||
        decide (d.max_args < args.length)) = false := by
      simp; omega
    have hcond₂ : (!d.regexp && !false &&
        args.any (fun a => !(wordOnly a))) = false := by
      rcases hword with h | h
      · simp [h]
      · have hany : args.any (fun a => !(wordOnly a)) = false := by
          simp only [List.any_eq_false]
          intro a ha
          simp [h a ha]
        simp [hany]
    rw [hcond]
    simp only [Bool.false_eq_true, if_false]
    rw [hcond₂]
    simp only [Bool.false_eq_true, if_false]

/-- Witness for the amended C6: `boo a b c` carries three arguments,
above `max_args = 2`, and raises; `boo hoo` carries one and succeeds. -/
theorem ParseCommandLine_arg_count_window_witness :
    (("boo a b c" : String).isEmpty = false ∧
      ParseCommandLine cRegistry "boo a b c" =
        .error "Invalid number of arguments.") ∧
    (("boo hoo" : String).isEmpty = false ∧
      ParseCommandLine cRegistry "boo hoo" = .ok ("boo", ["hoo"], false)) :=
  ⟨⟨by decide,
    (ParseCommandLine_arg_count_window cRegistry "boo a b c" "boo"
      ("a b c".toList) false booCmd
      ["a", "b", "c"] (by decide) (by decide) (by decide) (by decide)
      (by decide) (by decide)).1 (by decide)⟩,
   ⟨by decide,
    (ParseCommandLine_arg_count_window cRegistry "boo hoo" "boo"
      ("hoo".toList) false booCmd
      ["hoo"] (by decide) (by decide) (by decide) (by decide)
      (by decide) (by decide)).2 (by decide) (by decide)
      (Or.inr (by decide))⟩⟩

/-! ### `ExtractInlineCommands`

`ExtractInlineCommands` splits the line on the marker `' //'`
(`f' {INLINE}'`), scans the trailing segments right-to-left, accepts each
segment that `ParseCommandLine` parses cleanly, halts at a literal
`exit` (dropping it), and folds the first failing segment and everything
left of it back into the body.  `splitSep`/`joinSep` embed Python
`str.split(' //')` and `' //'.join(...)`. -/


def consHead (c : Char) : List (List Char) → List (List Char)
  | [] => [[c]]
  | h :: t => (c :: h) :: t

def splitSep : List Char → List (List Char)
  | [] => [[]]
  | ' ' :: '/' :: '/' :: rest => [] :: splitSep rest
  | c :: cs => consHead c (splitSep cs)

theorem splitSep_cons (c : Char) (cs : List Char)
    (h : ¬(c = ' ' ∧ ∃ r, cs = '/' :: '/' :: r)) :
    splitSep (c :: cs) = consHead c (splitSep cs) := by
  conv_lhs => unfold splitSep
  split
  · rename_i heq
    exact absurd heq (by simp)
  · rename_i rest heq
    injection heq with h1 h2
    exact absurd ⟨h1, rest, h2⟩ h
  · rename_i cc ccs hcond heq
    injection heq with h1 h2
    subst h1; subst h2
    rfl

theorem splitSep_ne_nil (l : List Char) : splitSep l ≠ [] := by
  induction l using splitSep.induct with
  | case1 => simp [splitSep]
  | case2 rest ih => simp [splitSep]
  | case3 c cs hcond ih =>
      rw [splitSep_cons c cs]
      · cases hh : splitSep cs with
        | nil => exact absurd hh ih
        | cons a b => simp [consHead]
      · intro hcc
        exact hcond hcc.2.choose hcc.1 hcc.2.choose_spec

def inlineSep : List Char := [' ', '/', '/']

def joinSep : List (List Char) → List Char
  | [] => []
  | [p] => p
  | p :: ps => p ++ inlineSep ++ joinSep ps

theorem joinSep_consHead (c : Char) (ps : List (List Char)) :
    joinSep (consHead c ps) = c :: joinSep ps := by
  match ps with
  | [] => rfl
  | [p] => rfl
  | p :: q :: t => rfl

theorem joinSep_splitSep (l : List Char) : joinSep (splitSep l) = l := by
  induction l using splitSep.induct with
  | case1 => rfl
  | case2 rest ih =>
      rw [splitSep]
      cases hh : splitSep rest with
      | nil => exact absurd hh (splitSep_ne_nil rest)
      | cons a b =>
          rw [hh] at ih
          show joinSep ([] :: a :: b) = ' ' :: '/' :: '/' :: rest
          have hj : joinSep ([] :: a :: b) = [] ++ inlineSep ++ joinSep (a :: b) :=
            rfl
          rw [hj, ih]
          rfl
  | case3 c cs hcond ih =>
      rw [splitSep_cons c cs (fun hcc =>
        hcond hcc.2.choose hcc.1 hcc.2.choose_spec)]
      rw [joinSep_consHead, ih]

theorem splitSep_sepFree_append (p rest : List Char)
    (hp : splitSep p = [p]) :
    splitSep (p ++ inlineSep ++ rest) = p :: splitSep rest := by
  induction p with
  | nil => rfl
  | cons c p' ih =>
      have hnotsep : ¬(c = ' ' ∧ ∃ r, p' = '/' :: '/' :: r) := by
        rintro ⟨hc, r, hr⟩
        subst hc; subst hr
        rw [splitSep] at hp
        have := splitSep_ne_nil r
        cases hh : splitSep r with
        | nil => exact this hh
        | cons a b => rw [hh] at hp; simp at hp
      have hp' : splitSep p' = [p'] := by
        rw [splitSep_cons c p' hnotsep] at hp
        cases hh : splitSep p' with
        | nil => exact absurd hh (splitSep_ne_nil p')
        | cons a b =>
            rw [hh] at hp
            have hp₂ : (c :: a) :: b = [c :: p'] := hp
            injection hp₂ with hhead htail
            injection hhead with _ hA
            rw [hA, htail]
      have hnotsep₂ : ¬(c = ' ' ∧ ∃ r,
          p' ++ inlineSep ++ rest = '/' :: '/' :: r) := by
        rintro ⟨hc, r, hr⟩
        cases p' with
        | nil => simp [inlineSep] at hr
        | cons d p'' =>
            cases p'' with
            | nil => simp [inlineSep] at hr
            | cons e p''' =>
                simp only [List.cons_append, List.cons.injEq] at hr
                exact hnotsep ⟨hc, p''', by rw [hr.1, hr.2.1]⟩
      simp only [List.cons_append]
      rw [splitSep_cons c (p' ++ inlineSep ++ rest) hnotsep₂, ih hp']
      rfl

theorem splitSep_joinSep (ps : List (List Char))
    (hps : ∀ p ∈ ps, splitSep p = [p]) (hne : ps ≠ []) :
    splitSep (joinSep ps) = ps := by
  induction ps with
  | nil => exact absurd rfl hne
  | cons p ps' ih =>
      cases ps' with
      | nil => exact hps p (List.mem_singleton_self p)
      | cons q t =>
          have hj : joinSep (p :: q :: t) = p ++ inlineSep ++ joinSep (q :: t) :=
            rfl
          rw [hj]
          rw [splitSep_sepFree_append p (joinSep (q :: t))
            (hps p (by simp))]
          rw [ih (fun x hx => hps x (by simp [hx])) (by simp)]

theorem splitSep_pieces_sepFree (l : List Char) :
    ∀ p ∈ splitSep l, splitSep p = [p] := by
  induction l using splitSep.induct with
  | case1 =>
      intro p hp
      simp only [splitSep, List.mem_singleton] at hp
      subst hp; rfl
  | case2 rest ih =>
      intro p hp
      rw [splitSep] at hp
      rcases List.mem_cons.mp hp with h | h
      · subst h; rfl
      · exact ih p h
  | case3 c cs hcond ih =>
      intro p hp
      have hnots : ¬(c = ' ' ∧ ∃ r, cs = '/' :: '/' :: r) := fun hcc =>
        hcond hcc.2.choose hcc.1 hcc.2.choose_spec
      rw [splitSep_cons c cs hnots] at hp
      cases hh : splitSep cs with
      | nil => exact absurd hh (splitSep_ne_nil cs)
      | cons hd t =>
          rw [hh] at hp
          simp only [consHead] at hp
          rcases List.mem_cons.mp hp with h | h
          · subst h
            have hhead_free : splitSep hd = [hd] :=
              ih hd (by rw [hh]; exact List.mem_cons_self _ _)
            have hcnots : ¬(c = ' ' ∧ ∃ r, hd = '/' :: '/' :: r) := by
              rintro ⟨hc, r, hr⟩
              have hcs : cs = joinSep (hd :: t) := by
                rw [← joinSep_splitSep cs, hh]
              cases t with
              | nil => exact hcond r hc (by rw [hcs, hr]; rfl)
              | cons q t' =>
                  refine hcond (r ++ inlineSep ++ joinSep (q :: t')) hc ?_
                  rw [hcs, hr]
                  rfl
            rw [splitSep_cons c hd hcnots, hhead_free]
            rfl
          · exact ih p (by rw [hh]; exact List.mem_cons_of_mem _ h)


/-- `token == 'exit'` in the scan loop. -/
def exitTok : List Char := ['e', 'x', 'i', 't']

/-- Does the token parse cleanly? (`ParseCommandLine` inside the
`try`/`except (ValueError, ParseError)` of the scan loop.) -/
def parsesCleanly (r : Registry) (token : String) : Bool :=
  match ParseCommandLine r token with
  | .ok _ => true
  | .error _ => false

/-- The right-to-left scan loop of `ExtractInlineCommands`, on the
reversed trailing segments.  Returns (the segments folded back into the
body because of a failing segment or segments left of an `exit`, in
original order; the accepted overrides in original left-to-right order;
whether an `exit` halted the scan). -/
def scanRTL (r : Registry) :
    List (List Char) → List (List Char) × List String × Bool
  | [] => ([], [], false)
  | t :: rest =>
      if t = exitTok then (rest.reverse, [], true)
      else if parsesCleanly r (String.mk t) then
        let res := scanRTL r rest
        (res.1, res.2.1 ++ [String.mk t], res.2.2)
      else ((t :: rest).reverse, [], false)

/-- `CommandParser.ExtractInlineCommands`: splits the line on `' //'`;
a line without the marker is returned unchanged with no overrides;
otherwise the trailing segments are scanned right-to-left and the body
is rebuilt as the first segment plus any folded-back segments rejoined
with the marker. -/
def ExtractInlineCommands (r : Registry) (command : String) :
    String × List String :=
  match splitSep command.toList with
  | [] => (command, [])
  | [_] => (command, [])
  | c :: ts =>
      let res := scanRTL r (ts.reverse)
      let body := if res.1 = [] then c else c ++ inlineSep ++ joinSep res.1
      (String.mk body, res.2.1)

/-- Did the scan halt at an `exit` override? -/
def inlineScanHitExit (r : Registry) (command : String) : Bool :=
  match splitSep command.toList with
  | [] => false
  | [_] => false
  | _ :: ts => (scanRTL r (ts.reverse)).2.2

theorem scanRTL_no_exit (r : Registry) (rts : List (List Char))
    (folded : List (List Char)) (acc : List String)
    (h : scanRTL r rts = (folded, acc, false)) :
    folded = [] ∨
    ∃ t pre, folded = (t :: pre).reverse ∧ (∀ x ∈ folded, x ∈ rts) ∧
      t ≠ exitTok ∧ parsesCleanly r (String.mk t) = false := by
  induction rts generalizing folded acc with
  | nil =>
      left
      simp only [scanRTL] at h
      exact (Prod.mk.injEq .. ▸ h).1.symm
  | cons t rest ih =>
      unfold scanRTL at h
      by_cases h1 : t = exitTok
      · simp only [h1, if_true] at h
        simp at h
      · simp only [h1, if_false] at h
        by_cases h2 : parsesCleanly r (String.mk t)
        · simp only [h2, if_true, Prod.mk.injEq] at h
          obtain ⟨hf, ha, he⟩ := h
          rcases ih folded (scanRTL r rest).2.1
              (by rw [← hf, ← he]) with h3 | ⟨t', pre, h4, h5, h6, h7⟩
          · exact Or.inl h3
          · exact Or.inr ⟨t', pre, h4,
              fun x hx => List.mem_cons_of_mem t (h5 x hx), h6, h7⟩
        · simp only [h2, Bool.false_eq_true, if_false, Prod.mk.injEq] at h
          obtain ⟨hf, ha, he⟩ := h
          exact Or.inr ⟨t, rest, hf.symm,
            fun x hx => by
              rw [← hf] at hx
              simpa using List.mem_reverse.mp hx,
            h1, by simpa using h2⟩

theorem scanRTL_failing_head (r : Registry) (t : List Char)
    (pre : List (List Char)) (hexit : t ≠ exitTok)
    (hfail : parsesCleanly r (String.mk t) = false) :
    scanRTL r (t :: pre) = ((t :: pre).reverse, [], false) := by
  unfold scanRTL
  simp [hexit, hfail]

/-- C7 as amended: `ExtractInlineCommands` is idempotent on its own
output body whenever the scan was not halted by an `exit` override:
reapplying it to the returned body yields that same body and an empty
override list.  (When an `exit` with accepted segments to its left halts
the scan, those segments return to the body still carrying their
markers, and a second application can extract them — see the
counterexample.) -/
theorem ExtractInlineCommands_idempotent_without_exit
    (r : Registry) (command body : String) (overrides : List String)
    (hrun : ExtractInlineCommands r command = (body, overrides))
    (hnoexit : inlineScanHitExit r command = false) :
    ExtractInlineCommands r body = (body, []) := by
  unfold ExtractInlineCommands at hrun
  cases hsplit : splitSep command.toList with
  | nil =>
      rw [hsplit] at hrun
      simp only [Prod.mk.injEq] at hrun
      rw [← hrun.1]
      unfold ExtractInlineCommands
      rw [hsplit]
  | cons c ts =>
      cases ts with
      | nil =>
          rw [hsplit] at hrun
          simp only [Prod.mk.injEq] at hrun
          rw [← hrun.1]
          unfold ExtractInlineCommands
          rw [hsplit]
      | cons t₁ trest =>
          rw [hsplit] at hrun
          simp only [Prod.mk.injEq] at hrun
          obtain ⟨hbody, hover⟩ := hrun
          unfold inlineScanHitExit at hnoexit
          rw [hsplit] at hnoexit
          -- the scan result, with its components
          have hsc : scanRTL r ((t₁ :: trest).reverse) =
              ((scanRTL r ((t₁ :: trest).reverse)).1,
               (scanRTL r ((t₁ :: trest).reverse)).2.1,
               (scanRTL r ((t₁ :: trest).reverse)).2.2) := rfl
          rcases scanRTL_no_exit r ((t₁ :: trest).reverse)
              (scanRTL r ((t₁ :: trest).reverse)).1
              (scanRTL r ((t₁ :: trest).reverse)).2.1
              (by rw [← hnoexit]) with hempty | ⟨t, pre, hfold, hmem, hte, htp⟩
          · -- all trailing segments were accepted: the body is the first
            -- piece, which contains no marker
            rw [hempty] at hbody
            simp only [if_true] at hbody
            have hcfree : splitSep c = [c] :=
              splitSep_pieces_sepFree command.toList c
                (by rw [hsplit]; exact List.mem_cons_self _ _)
            unfold ExtractInlineCommands
            have hbt : body.toList = c := by rw [← hbody]; rfl
            rw [hbt, hcfree, ← hbody]
          · -- the scan stopped at a failing segment: the body is the first
            -- piece plus the folded-back segments, and the rescan folds
            -- them all back again
            have hfne : (scanRTL r ((t₁ :: trest).reverse)).1 ≠ [] := by
              rw [hfold]; simp
            rw [if_neg hfne] at hbody
            have hcfree : splitSep c = [c] :=
              splitSep_pieces_sepFree command.toList c
                (by rw [hsplit]; exact List.mem_cons_self _ _)
            have hpieces : ∀ x ∈ (scanRTL r ((t₁ :: trest).reverse)).1,
                splitSep x = [x] := by
              intro x hx
              have hx₂ : x ∈ t₁ :: trest := by
                have := hmem x hx
                simpa using List.mem_reverse.mp this
              exact splitSep_pieces_sepFree command.toList x
                (by rw [hsplit]; exact List.mem_cons_of_mem _ hx₂)
            have hbt : body.toList =
                c ++ inlineSep ++ joinSep (scanRTL r ((t₁ :: trest).reverse)).1 := by
              rw [← hbody]; rfl
            have hresplit : splitSep body.toList =
                c :: (scanRTL r ((t₁ :: trest).reverse)).1 := by
              rw [hbt, splitSep_sepFree_append c _ hcfree,
                splitSep_joinSep _ hpieces hfne]
            unfold ExtractInlineCommands
            rw [hresplit]
            cases hf : (scanRTL r ((t₁ :: trest).reverse)).1 with
            | nil => exact absurd hf hfne
            | cons f₀ frest =>
                have hscan₂ : scanRTL r ((f₀ :: frest).reverse) =
                    ((f₀ :: frest), [], false) := by
                  have hrev : (f₀ :: frest).reverse = t :: pre := by
                    rw [← hf, hfold, List.reverse_reverse]
                  rw [hrev, scanRTL_failing_head r t pre hte htp, ← hrev,
                    List.reverse_reverse]
                rw [hf] at hbody
                rw [List.reverse_cons] at hscan₂
                simp [hscan₂, ← hbody]

/-- Counterexample to C7: with the `log` command registered, the line
`cat //log buf //exit` is halted by the `exit` override, which returns
the accepted-parseable segment `log buf` to the body — so the body
`cat //log buf` still contains a marker, and a second application
extracts `log buf` as an override instead of returning the body
unchanged with an empty list. -/
theorem ExtractInlineCommands_idempotence_counterexample :
    ExtractInlineCommands cRegistry "cat //log buf //exit" =
      ("cat //log buf", []) ∧
    ExtractInlineCommands cRegistry "cat //log buf" = ("cat", ["log buf"]) ∧
    ("cat" : String) ≠ "cat //log buf" := by
  decide

/-- Witness for the amended C7 at two concrete lines: one whose
trailing segment fails to parse (folded back, body unchanged on the
second pass) and one whose trailing segments are all accepted. -/
theorem ExtractInlineCommands_idempotent_without_exit_witness :
    (ExtractInlineCommands cRegistry "cat alpha //bogus!" =
      ("cat alpha //bogus!", []) ∧
     inlineScanHitExit cRegistry "cat alpha //bogus!" = false ∧
     ExtractInlineCommands cRegistry "cat alpha //bogus!" =
       ("cat alpha //bogus!", [])) ∧
    (ExtractInlineCommands cRegistry "cat alpha //log buf" =
      ("cat alpha", ["log buf"]) ∧
     inlineScanHitExit cRegistry "cat alpha //log buf" = false ∧
     ExtractInlineCommands cRegistry "cat alpha" = ("cat alpha", [])) :=
  ⟨⟨by decide, by decide,
    ExtractInlineCommands_idempotent_without_exit cRegistry
      "cat alpha //bogus!" "cat alpha //bogus!" [] (by decide) (by decide)⟩,
   ⟨by decide, by decide,
    ExtractInlineCommands_idempotent_without_exit cRegistry
      "cat alpha //log buf" "cat alpha" ["log buf"] (by decide) (by decide)⟩⟩

/-! ### `ExtractPipe`

`CommandParser.ExtractPipe` tokenizes the line into quoted spans and
unquoted text (the `re.findall` over quoted/unquoted alternatives,
embedded as `quoteScanF` with a fuel bounded by the input length: every
step consumes at least one character), splits the unquoted parts into
maximal runs of pipes and non-pipes (`pipeSplitRunF`), consumes
everything through the last single-pipe token into the device side (the
`while sgl_pipe in new_token_list` loop, `sglLoopF`), splits at the
first remaining `||` token, and rewrites the `||` tokens after it to
`|`; both sides are stripped. -/


def splitAtChar (q : Char) : List Char → Option (List Char × List Char)
  | [] => none
  | c :: cs =>
      if c = q then some ([], cs)
      else (splitAtChar q cs).map (fun p => (c :: p.1, p.2))

def notQuote (c : Char) : Bool := !(c == '"') && !(c == '\'')

def pipeSplitRunF : Nat → List Char → List (List Char)
  | 0, _ => []
  | _, [] => []
  | fuel + 1, c :: cs =>
      let p := fun x => ((x == '|') == (c == '|'))
      ((c :: cs).takeWhile p) :: pipeSplitRunF fuel ((c :: cs).dropWhile p)

def pipeSplitRun (l : List Char) : List (List Char) := pipeSplitRunF l.length l

def quoteScanF : Nat → List Char → List (List Char)
  | 0, _ => []
  | _, [] => []
  | fuel + 1, c :: cs =>
      if c == '"' || c == '\'' then
        match splitAtChar c cs with
        | some (inside, rest) =>
            (c :: (inside ++ [c])) :: quoteScanF fuel rest
        | none => quoteScanF fuel cs
      else
        pipeSplitRun ((c :: cs).takeWhile notQuote) ++
          quoteScanF fuel ((c :: cs).dropWhile notQuote)

def quoteScan (l : List Char) : List (List Char) := quoteScanF l.length l

def pipeTok : List Char := ['|']
def dblPipeTok : List Char := ['|', '|']

def breakFirst {α : Type} [DecidableEq α] (tok : α) : List α → Option (List α × List α)
  | [] => none
  | x :: xs =>
      if x = tok then some ([], xs)
      else (breakFirst tok xs).map (fun p => (x :: p.1, p.2))

def sglLoopF : Nat → List (List Char) → List Char × List (List Char)
  | 0, l => ([], l)
  | fuel + 1, l =>
      match breakFirst pipeTok l with
      | none => ([], l)
      | some (a, b) =>
          let res := sglLoopF fuel b
          (a.flatten ++ pipeTok ++ res.1, res.2)

def processPipeTokens (toks : List (List Char)) : String × String :=
  let sgl := sglLoopF toks.length toks
  match breakFirst dblPipeTok sgl.2 with
  | some (a, b) =>
      (String.mk (pyStrip (sgl.1 ++ a.flatten)),
       String.mk (pyStrip ((b.map
         (fun x => if x = dblPipeTok then pipeTok else x)).flatten)))
  | none => (String.mk (pyStrip (sgl.1 ++ sgl.2.flatten)), "")

def ExtractPipe (command : String) : String × String :=
  processPipeTokens (quoteScan command.toList)




def lastSplit {α : Type} [DecidableEq α] (tok : α) : List α → Option (List α × List α)
  | [] => none
  | x :: xs =>
      match lastSplit tok xs with
      | some (a, b) => some (x :: a, b)
      | none => if x = tok then some ([], xs) else none

theorem breakFirst_none_iff {α : Type} [DecidableEq α] (tok : α) (l : List α) :
    breakFirst tok l = none ↔ tok ∉ l := by
  induction l with
  | nil => simp [breakFirst]
  | cons x xs ih =>
      by_cases hx : x = tok
      · simp [breakFirst, hx]
      · simp only [breakFirst, if_neg hx, Option.map_eq_none', ih,
          List.mem_cons]
        constructor
        · intro h hc
          rcases hc with hc | hc
          · exact hx hc.symm
          · exact h hc
        · intro h hc
          exact h (Or.inr hc)

theorem breakFirst_eq_some {α : Type} [DecidableEq α] (tok : α)
    (l a b : List α) (h : breakFirst tok l = some (a, b)) :
    l = a ++ tok :: b ∧ tok ∉ a := by
  induction l generalizing a b with
  | nil => simp [breakFirst] at h
  | cons x xs ih =>
      by_cases hx : x = tok
      · simp only [breakFirst, if_pos hx, Option.some.injEq, Prod.mk.injEq] at h
        obtain ⟨h1, h2⟩ := h
        subst h1; subst h2; subst hx
        exact ⟨rfl, by simp⟩
      · simp only [breakFirst, if_neg hx, Option.map_eq_some',
          Prod.mk.injEq] at h
        obtain ⟨⟨a', b'⟩, hsome, h1, h2⟩ := h
        obtain ⟨hl, hna⟩ := ih a' b' hsome
        subst h2
        constructor
        · rw [← h1]; simp [hl]
        · rw [← h1]
          simp only [List.mem_cons]
          rintro (hc | hc)
          · exact hx hc.symm
          · exact hna hc

theorem breakFirst_append_notin {α : Type} [DecidableEq α] (tok : α)
    (a b : List α) (ha : tok ∉ a) :
    breakFirst tok (a ++ tok :: b) = some (a, b) := by
  induction a with
  | nil => simp [breakFirst]
  | cons x xs ih =>
      have hx : x ≠ tok := fun hc => ha (by simp [hc])
      simp only [List.cons_append, breakFirst, if_neg hx, List.append_eq]
      rw [ih (fun hc => ha (by simp [hc]))]
      rfl

theorem lastSplit_none_iff {α : Type} [DecidableEq α] (tok : α) (l : List α) :
    lastSplit tok l = none ↔ tok ∉ l := by
  induction l with
  | nil => simp [lastSplit]
  | cons x xs ih =>
      unfold lastSplit
      cases hls : lastSplit tok xs with
      | some p =>
          obtain ⟨a, b⟩ := p
          have hmem : tok ∈ xs := by
            by_contra hc
            rw [ih.mpr hc] at hls
            exact Option.noConfusion hls
          constructor
          · intro hcontra
            exact absurd hcontra (by simp)
          · intro hnot
            exact absurd (List.mem_cons_of_mem x hmem) hnot
      | none =>
          by_cases hx : x = tok
          · subst hx
            simp
          · rw [if_neg hx]
            constructor
            · intro _ hmem
              rcases List.mem_cons.mp hmem with hc | hc
              · exact hx hc.symm
              · exact (ih.mp hls) hc
            · intro _
              rfl

theorem lastSplit_append_notin {α : Type} [DecidableEq α] (tok : α)
    (a b : List α) (hb : tok ∉ b) :
    lastSplit tok (a ++ tok :: b) = some (a, b) := by
  induction a with
  | nil =>
      simp only [List.nil_append]
      unfold lastSplit
      rw [(lastSplit_none_iff tok b).mpr hb]
      simp
  | cons x xs ih =>
      simp only [List.cons_append]
      unfold lastSplit
      rw [ih]

theorem lastSplit_append_some {α : Type} [DecidableEq α] (tok : α)
    (a b a' b' : List α) (hb : lastSplit tok b = some (a', b')) :
    lastSplit tok (a ++ tok :: b) = some (a ++ tok :: a', b') := by
  induction a with
  | nil =>
      simp only [List.nil_append]
      unfold lastSplit
      rw [hb]
  | cons x xs ih =>
      simp only [List.cons_append]
      unfold lastSplit
      rw [ih]

theorem sglLoopF_eq (fuel : Nat) :
    ∀ l : List (List Char), l.length ≤ fuel →
      sglLoopF fuel l =
        match lastSplit pipeTok l with
        | none => ([], l)
        | some (a, b) => (a.flatten ++ pipeTok, b) := by
  induction fuel with
  | zero =>
      intro l hl
      have : l = [] := List.length_eq_zero.mp (Nat.le_zero.mp hl)
      subst this
      rfl
  | succ fuel ih =>
      intro l hl
      unfold sglLoopF
      cases hbf : breakFirst pipeTok l with
      | none =>
          rw [(lastSplit_none_iff pipeTok l).mpr
            ((breakFirst_none_iff pipeTok l).mp hbf)]
      | some p =>
          obtain ⟨a, b⟩ := p
          obtain ⟨hdecomp, hna⟩ := breakFirst_eq_some pipeTok l a b hbf
          have hlen : b.length ≤ fuel := by
            subst hdecomp
            simp only [List.length_append, List.length_cons] at hl
            omega
          dsimp only
          rw [ih b hlen]
          cases hls : lastSplit pipeTok b with
          | none =>
              subst hdecomp
              rw [lastSplit_append_notin pipeTok a b
                ((lastSplit_none_iff pipeTok b).mp hls)]
              simp
          | some q =>
              obtain ⟨a', b'⟩ := q
              subst hdecomp
              rw [lastSplit_append_some pipeTok a b a' b' hls]
              simp [List.flatten_append]


/-- C5: `ExtractPipe` on the spec's two concrete lines.  The first splits
at the first `||` that has no single `|` to its right and rewrites the
later `||` to `|`; the second shows a quoted `||` is never a split
point. -/
theorem ExtractPipe_spec_examples :
    ExtractPipe "cat alpha | grep abc || grep xyz || grep -v \"||\"" =
      ("cat alpha | grep abc", "grep xyz | grep -v \"||\"") ∧
    ExtractPipe "cat alpha '||' || grep xyz" = ("cat alpha '||'", "grep xyz") := by
  decide

/-- Counterexample to C4: the claim predicts that in
`a || b | c || d` the leftmost `||` is the accepted split point and the
later `||` (to the right of the single `|`) downgrades to a literal
pipe, which would give `("a", "b | c | d")`.  The code does the
opposite: the leftmost `||` is kept literally in the device part
(because a single `|` sits to its right) and the *later* `||` is the
split point. -/
theorem ExtractPipe_leftmost_dbl_counterexample :
    ExtractPipe "a || b | c || d" = ("a || b | c", "d") ∧
    ExtractPipe "a || b | c || d" ≠ ("a", "b | c | d") := by
  decide

/-- C4 as amended: a `||` token is a split point only when no unquoted
single `|` token occurs anywhere to its right; the accepted `||` is the
first one after the last single `|` (or the first one overall when
there is no single `|`), the device part is everything before it — with
every earlier `||` kept as literal text — and the `||` tokens after it
are rewritten to `|` in the local pipe.  When every `||` has a single
`|` somewhere to its right (or there is none), there is no split and
the whole line is the device part. -/
theorem ExtractPipe_accepts_first_dbl_after_last_sgl :
    (∀ a b₁ b₂ : List (List Char), pipeTok ∉ b₁ → pipeTok ∉ b₂ →
      dblPipeTok ∉ b₁ →
      processPipeTokens (a ++ pipeTok :: (b₁ ++ dblPipeTok :: b₂)) =
        (String.mk (pyStrip (a.flatten ++ pipeTok ++ b₁.flatten)),
         String.mk (pyStrip ((b₂.map
           (fun x => if x = dblPipeTok then pipeTok else x)).flatten)))) ∧
    (∀ b₁ b₂ : List (List Char), pipeTok ∉ b₁ → pipeTok ∉ b₂ →
      dblPipeTok ∉ b₁ →
      processPipeTokens (b₁ ++ dblPipeTok :: b₂) =
        (String.mk (pyStrip b₁.flatten),
         String.mk (pyStrip ((b₂.map
           (fun x => if x = dblPipeTok then pipeTok else x)).flatten)))) ∧
    (∀ a b : List (List Char), pipeTok ∉ b → dblPipeTok ∉ b →
      processPipeTokens (a ++ pipeTok :: b) =
        (String.mk (pyStrip (a.flatten ++ pipeTok ++ b.flatten)), "")) ∧
    (∀ l : List (List Char), pipeTok ∉ l → dblPipeTok ∉ l →
      processPipeTokens l = (String.mk (pyStrip l.flatten), "")) := by
  have hne : pipeTok ∉ ([] : List (List Char)) := by simp
  refine ⟨?_, ?_, ?_, ?_⟩
  · intro a b₁ b₂ hb1 hb2 hd1
    have hnb : pipeTok ∉ b₁ ++ dblPipeTok :: b₂ := by
      simp only [List.mem_append, List.mem_cons]
      rintro (h | h | h)
      · exact hb1 h
      · exact absurd h (by decide)
      · exact hb2 h
    unfold processPipeTokens
    rw [sglLoopF_eq _ _ le_rfl,
      lastSplit_append_notin pipeTok a (b₁ ++ dblPipeTok :: b₂) hnb]
    dsimp only
    rw [breakFirst_append_notin dblPipeTok b₁ b₂ hd1]
  · intro b₁ b₂ hb1 hb2 hd1
    have hnl : pipeTok ∉ b₁ ++ dblPipeTok :: b₂ := by
      simp only [List.mem_append, List.mem_cons]
      rintro (h | h | h)
      · exact hb1 h
      · exact absurd h (by decide)
      · exact hb2 h
    unfold processPipeTokens
    rw [sglLoopF_eq _ _ le_rfl, (lastSplit_none_iff pipeTok _).mpr hnl]
    dsimp only
    rw [breakFirst_append_notin dblPipeTok b₁ b₂ hd1]
    simp
  · intro a b hb hd
    unfold processPipeTokens
    rw [sglLoopF_eq _ _ le_rfl, lastSplit_append_notin pipeTok a b hb]
    dsimp only
    rw [(breakFirst_none_iff dblPipeTok b).mpr hd]
  · intro l hp hd
    unfold processPipeTokens
    rw [sglLoopF_eq _ _ le_rfl, (lastSplit_none_iff pipeTok l).mpr hp]
    dsimp only
    rw [(breakFirst_none_iff dblPipeTok l).mpr hd]
    simp


/-- Token lists for the witness line `a || b | c || d`. -/
def c4TokA : List (List Char) := ["a ".toList, "||".toList, " b ".toList]
def c4TokB1 : List (List Char) := [" c ".toList]
def c4TokB2 : List (List Char) := [" d".toList]

/-- Witness for the amended C4 at the tokenization of
`a || b | c || d`: the later `||` splits, the earlier one is literal
device text. -/
theorem ExtractPipe_accepts_first_dbl_after_last_sgl_witness :
    quoteScan ("a || b | c || d".toList) =
      c4TokA ++ pipeTok :: (c4TokB1 ++ dblPipeTok :: c4TokB2) ∧
    pipeTok ∉ c4TokB1 ∧ pipeTok ∉ c4TokB2 ∧ dblPipeTok ∉ c4TokB1 ∧
    processPipeTokens (c4TokA ++ pipeTok :: (c4TokB1 ++ dblPipeTok :: c4TokB2)) =
      (String.mk (pyStrip (c4TokA.flatten ++ pipeTok ++ c4TokB1.flatten)),
       String.mk (pyStrip ((c4TokB2.map
         (fun x => if x = dblPipeTok then pipeTok else x)).flatten))) :=
  ⟨by decide, by decide, by decide, by decide,
    ExtractPipe_accepts_first_dbl_after_last_sgl.1 c4TokA c4TokB1 c4TokB2
      (by decide) (by decide) (by decide)⟩

/-! ## `tcli_lib.py` — the dispatch tail (`Callback`, `CmdRequests`)

`CmdRequests` registers the batch in a fresh `CmdResponse`, submits the
requests and blocks on `done.wait(self.timeout + 5)` — the timeout plus
the fixed five-second grace pad.  `Callback` runs `AddResponse` and then
drains every newly completed row through `GetRow`, rendering each via
`_FormatResponse`.  The session is modelled by the ledger plus the
append-only list of rendered rows and the list of warnings printed with
`_PrintWarning`; real time is abstracted by taking the outcome of
`done.wait` to be the state of the `done` flag once every reply that
will arrive has arrived. -/

/-- The dispatch-relevant session state: the live ledger, the rows
rendered so far (`_FormatResponse`, append-only), and the warnings
printed so far (`_PrintWarning`). -/
structure Session where
  cmd_response : CmdResponse
  displayed : List (List Nat × String)
  warnings : List String
  deriving DecidableEq, Repr

/-- The message of `_PrintWarning` in the timeout branch. -/
def timeoutWarning : String :=
  "Timeout: timer exceeded while waiting for responses."

/-- `_FormatResponse`: renders one completed row (modelled as appending
it to the displayed log). -/
def _FormatResponse (s : Session) (uids : List Nat) (pipe : String) :
    Session :=
  { s with displayed := s.displayed ++ [(uids, pipe)] }

/-- The `row = GetRow(); while row: _FormatResponse(...); row = GetRow()`
loop of `Callback`.  Each released row advances the ledger cursor to a
fresh row id, so the loop releases at most one row per registered row;
the fuel `row_response.length + 1` therefore always suffices, and the
`none` case is unreachable from API-built states. -/
def drainRows : Nat → Session → Option Session
  | 0, _ => none
  | fuel + 1, s =>
      match GetRow s.cmd_response with
      | none => none
      | some (st', none) => some { s with cmd_response := st' }
      | some (st', some (uids, pipe)) =>
          drainRows fuel (_FormatResponse { s with cmd_response := st' } uids pipe)

/-- `TCLI.Callback`: store the reply in the ledger, then drain every row
newly completed, in order. -/
def Callback (s : Session) (response : Response) : Option Session :=
  match AddResponse s.cmd_response response with
  | none => none
  | some (st', _) =>
      drainRows (st'.row_response.length + 1) { s with cmd_response := st' }

/-- A sequence of reply deliveries through `Callback`. -/
def runCallbacks : Session → List Response → Option Session
  | s, [] => some s
  | s, r :: rs =>
      match Callback s r with
      | none => none
      | some s' => runCallbacks s' rs

/-- A session at the start of a dispatch: a fresh ledger loaded with the
batch, nothing rendered, nothing warned. -/
def registerSession (batch : List (String × List Nat)) : Option Session :=
  (registerBatch batch).map (fun st =>
    { cmd_response := st, displayed := [], warnings := [] })

/-- The `done.wait(self.timeout + 5)` outcome once all replies that will
ever arrive have been delivered: the state of the ledger's `done` flag. -/
def waitResult (s : Session) : Bool := s.cmd_response.done

/-- The tail of `CmdRequests` after the wait (lines 878-881): on expiry
the ledger is discarded and replaced by a fresh `CmdResponse` and one
timeout warning is printed; otherwise nothing happens. -/
def CmdRequestsTail (s : Session) : Session :=
  if waitResult s then s
  else { s with cmd_response := initCmdResponse,
                warnings := s.warnings ++ [timeoutWarning] }

theorem GetRow_count_results (st st' : CmdResponse)
    (r : Option (List Nat × String)) (h : GetRow st = some (st', r))
    (hne : st.results.length ≠ st.response_count) :
    st'.response_count = st.response_count ∧ st'.results = st.results ∧
      st'.done = st.done ∧ st'.row_response = st.row_response := by
  unfold GetRow at h
  cases h₁ : alookup st.row_response st.current_row with
  | none =>
      simp only [h₁] at h
      rw [if_neg hne] at h
      simp only [Option.some.injEq, Prod.mk.injEq] at h
      rw [← h.1]
      exact ⟨rfl, rfl, rfl, rfl⟩
  | some received =>
      simp only [h₁] at h
      cases h₂ : alookup st.row_index st.current_row with
      | none => simp only [h₂] at h; exact Option.noConfusion h
      | some expected =>
          simp only [h₂] at h
          by_cases hc : received.length = expected.length
          · simp only [hc, if_true] at h
            cases h₃ : alookup st.pipe st.current_row with
            | none => simp only [h₃] at h; exact Option.noConfusion h
            | some p =>
                simp only [h₃, Option.some.injEq, Prod.mk.injEq] at h
                rw [← h.1]
                exact ⟨rfl, rfl, rfl, rfl⟩
          · simp only [hc, if_false, Option.some.injEq, Prod.mk.injEq] at h
            rw [← h.1]
            exact ⟨rfl, rfl, rfl, rfl⟩

theorem drainRows_bound (fuel : Nat) :
    ∀ s s', drainRows fuel s = some s' →
      s.cmd_response.done = false →
      s.cmd_response.response_count < s.cmd_response.results.length →
      s'.cmd_response.done = false ∧
      s'.cmd_response.response_count = s.cmd_response.response_count ∧
      s'.cmd_response.results = s.cmd_response.results := by
  induction fuel with
  | zero => intro s s' h; simp [drainRows] at h
  | succ fuel ih =>
      intro s s' h hdone hlt
      unfold drainRows at h
      cases hget : GetRow s.cmd_response with
      | none => rw [hget] at h; exact Option.noConfusion h
      | some p =>
          obtain ⟨st', r⟩ := p
          have hne : s.cmd_response.results.length ≠
              s.cmd_response.response_count := by omega
          obtain ⟨hc, hr, hd, _⟩ :=
            GetRow_count_results s.cmd_response st' r hget hne
          rw [hget] at h
          cases r with
          | none =>
              simp only [Option.some.injEq] at h
              rw [← h]
              exact ⟨hd.trans hdone, hc, hr⟩
          | some row =>
              obtain ⟨uids, pipe⟩ := row
              obtain ⟨h₁, h₂, h₃⟩ := ih _ s' h
                (by simpa [_FormatResponse] using hd.trans hdone)
                (by simpa [_FormatResponse, hc, hr] using hlt)
              refine ⟨h₁, ?_, ?_⟩
              · rw [h₂]; simpa [_FormatResponse] using hc
              · rw [h₃]; simpa [_FormatResponse] using hr

theorem Callback_bound (s : Session) (r : Response) (s' : Session)
    (h : Callback s r = some s')
    (hdone : s.cmd_response.done = false)
    (hlt : s.cmd_response.response_count + 1 <
      s.cmd_response.results.length) :
    s'.cmd_response.done = false ∧
    s'.cmd_response.response_count ≤ s.cmd_response.response_count + 1 ∧
    s.cmd_response.results.length ≤ s'.cmd_response.results.length := by
  unfold Callback at h
  cases hadd : AddResponse s.cmd_response r with
  | none => rw [hadd] at h; exact Option.noConfusion h
  | some p =>
      obtain ⟨st₁, b⟩ := p
      rw [hadd] at h
      have hprops : st₁.done = s.cmd_response.done ∧
          st₁.response_count ≤ s.cmd_response.response_count + 1 ∧
          s.cmd_response.results.length ≤ st₁.results.length := by
        unfold AddResponse at hadd
        cases h₁ : alookup s.cmd_response.uid_index r.uid with
        | none =>
            simp only [h₁, Option.some.injEq, Prod.mk.injEq] at hadd
            rw [← hadd.1]
            exact ⟨rfl, Nat.le_succ _, le_refl _⟩
        | some command_row =>
            simp only [h₁] at hadd
            cases h₂ : alookup s.cmd_response.row_response command_row with
            | none => simp only [h₂] at hadd; exact Option.noConfusion hadd
            | some received =>
                simp only [h₂, Option.some.injEq, Prod.mk.injEq] at hadd
                rw [← hadd.1]
                exact ⟨rfl, le_refl _, length_ainsert_ge _ _ _⟩
      obtain ⟨hd, hcnt, hres⟩ := hprops
      obtain ⟨h₁, h₂, h₃⟩ := drainRows_bound (st₁.row_response.length + 1)
        { s with cmd_response := st₁ } s' h (by simpa using hd.trans hdone)
        (by simp; omega)
      refine ⟨h₁, ?_, ?_⟩
      · rw [h₂]; simpa using hcnt
      · rw [h₃]; simpa using hres

theorem runCallbacks_bound (resps : List Response) :
    ∀ s s', runCallbacks s resps = some s' →
      s.cmd_response.done = false →
      s.cmd_response.response_count + resps.length <
        s.cmd_response.results.length →
      s'.cmd_response.done = false := by
  induction resps with
  | nil =>
      intro s s' h hdone _
      simp only [runCallbacks, Option.some.injEq] at h
      rw [← h]
      exact hdone
  | cons r rs ih =>
      intro s s' h hdone hlt
      unfold runCallbacks at h
      cases hcb : Callback s r with
      | none => rw [hcb] at h; exact Option.noConfusion h
      | some s₁ =>
          rw [hcb] at h
          simp only [List.length_cons] at hlt
          obtain ⟨h₁, h₂, h₃⟩ := Callback_bound s r s₁ hcb hdone (by omega)
          exact ih s₁ s' h h₁ (by omega)

/-- C8: when fewer replies than registered requests are delivered, the
ledger's completion flag is never set, so the bounded wait at the end of
`CmdRequests` can only expire; on expiry the orchestrator discards the
ledger and replaces it with a fresh one, prints exactly one timeout
warning, renders no partial row (the displayed log is exactly what the
callbacks had already drained — nothing is re-shown or rolled back), and
returns normally so the session continues. -/
theorem dispatch_timeout_replaces_ledger_one_warning
    (batch : List (String × List Nat)) (resps : List Response)
    (s₀ s₁ : Session)
    (hreg : registerSession batch = some s₀)
    (hrun : runCallbacks s₀ resps = some s₁)
    (hfew : resps.length < s₀.cmd_response.results.length) :
    s₁.cmd_response.done = false ∧
    (CmdRequestsTail s₁).cmd_response = initCmdResponse ∧
    (CmdRequestsTail s₁).warnings = s₁.warnings ++ [timeoutWarning] ∧
    (CmdRequestsTail s₁).displayed = s₁.displayed := by
  have hinit : s₀.cmd_response.done = false ∧
      s₀.cmd_response.response_count = 0 := by
    unfold registerSession at hreg
    cases hb : registerBatch batch with
    | none => rw [hb] at hreg; exact Option.noConfusion hreg
    | some st =>
        rw [hb] at hreg
        simp only [Option.map_some', Option.some.injEq] at hreg
        obtain ⟨-, h₂, h₃⟩ :=
          registerBatchAux_frame batch initCmdResponse 0 st hb
        rw [← hreg]
        exact ⟨h₂, h₃⟩
  have hdone : s₁.cmd_response.done = false :=
    runCallbacks_bound resps s₀ s₁ hrun hinit.1 (by rw [hinit.2]; omega)
  refine ⟨hdone, ?_, ?_, ?_⟩ <;>
    simp [CmdRequestsTail, waitResult, hdone]

/-- Concrete timeout run for the C8 witness: one row expecting uids 1
and 2, only uid 1 delivered. -/
def c8Start : Session :=
  (registerSession [("p", [1, 2])]).getD
    { cmd_response := initCmdResponse, displayed := [], warnings := [] }

def c8After : Session := (runCallbacks c8Start [mkResponse 1]).getD c8Start

/-- Witness for C8: with one of two replies delivered, `done` stays
unset, the wait expires, the ledger is replaced, exactly one warning is
appended, and nothing new is displayed. -/
theorem dispatch_timeout_replaces_ledger_one_warning_witness :
    registerSession [("p", [1, 2])] = some c8Start ∧
    runCallbacks c8Start [mkResponse 1] = some c8After ∧
    ([mkResponse 1] : List Response).length <
      c8Start.cmd_response.results.length ∧
    (c8After.cmd_response.done = false ∧
     (CmdRequestsTail c8After).cmd_response = initCmdResponse ∧
     (CmdRequestsTail c8After).warnings = c8After.warnings ++ [timeoutWarning] ∧
     (CmdRequestsTail c8After).displayed = c8After.displayed) :=
  ⟨by decide, by decide, by decide,
    dispatch_timeout_replaces_ledger_one_warning [("p", [1, 2])]
      [mkResponse 1] c8Start c8After (by decide) (by decide) (by decide)⟩

/-! ## `TCLI.__copy__` and the inline-override overlay session

`_ExtractInlineCommands` (tcli_lib.py) runs the extracted overrides in a
child object built by `copy.copy(self)`: `__copy__` creates a fresh
`TCLI()` object, shares `buffers` (the `TextBuffer` store),
`filter_engine`, `cmd_response` and `inventory` **by reference**, and
copies the listed display/log/format/timeout values.  Object identity is
modelled by an explicit heap: `Heap.objs` maps object ids to the
value-copied fields plus a reference (`Nat`) into `Heap.bufs`, the
shared `TextBuffer` stores.  Overlay execution mutates only the child
object and the shared buffer store it references. -/

/-- The value-copied attributes of `TCLI.__copy__` (lines 394-411).
`filter_engine`, `cmd_response` and `inventory` are opaque shared
handles, not modelled; `cli_parser` is rebuilt fresh (base commands then
`InlineOnly`), never shared. -/
structure TcliFields where
  color : Option String
  color_scheme : Option String
  display : Option String
  filter : Option String
  linewrap : Option String
  log : Option String
  logall : Option String
  mode : Option String
  pipe : Option String
  playback : Option String
  record : Option String
  recordall : Option String
  safemode : Bool
  system_color : String
  timeout : Option Int
  title_color : String
  verbose : Bool
  warning_color : String
  deriving DecidableEq, Repr

/-- `TCLI.__init__` defaults for the modelled attributes. -/
def initTcliFields : TcliFields :=
  { color := none, color_scheme := none, display := none, filter := none,
    linewrap := none, log := none, logall := none, mode := none,
    pipe := none, playback := none, record := none, recordall := none,
    safemode := false, system_color := "", timeout := none,
    title_color := "", verbose := false, warning_color := "" }

/-- The field-by-field value copy of `__copy__` (lines 394-411). -/
def copyFields (f : TcliFields) : TcliFields :=
  { color := f.color, color_scheme := f.color_scheme, display := f.display,
    filter := f.filter, linewrap := f.linewrap, log := f.log,
    logall := f.logall, mode := f.mode, pipe := f.pipe,
    playback := f.playback, record := f.record, recordall := f.recordall,
    safemode := f.safemode, system_color := f.system_color,
    timeout := f.timeout, title_color := f.title_color,
    verbose := f.verbose, warning_color := f.warning_color }

/-- A `text_buffer.TextBuffer` store: named buffers
(`collections.defaultdict(str)`). -/
abbrev BufStore : Type := List (String × String)

/-- `TextBuffer.Append`: empty name or empty line is silently discarded;
otherwise the line is appended after a newline, or becomes the content
when the buffer was absent or empty. -/
def TextBufferAppend (store : BufStore) (text_buffer line : String) :
    BufStore :=
  if text_buffer.isEmpty || line.isEmpty then store
  else
    match alookup store text_buffer with
    | some content =>
        if content.isEmpty then ainsert store text_buffer line
        else ainsert store text_buffer (content ++ "\n" ++ line)
    | none => ainsert store text_buffer line

/-- A TCLI object: its value fields plus the reference to its (possibly
shared) `TextBuffer` store. -/
structure TcliObj where
  fields : TcliFields
  buffers : Nat
  deriving DecidableEq, Repr

/-- The object heap: TCLI objects and `TextBuffer` stores by id. -/
structure Heap where
  objs : List (Nat × TcliObj)
  bufs : List (Nat × BufStore)
  deriving DecidableEq, Repr

/-- An id strictly greater than every key in use. -/
def freshKey {β : Type} (l : List (Nat × β)) : Nat :=
  (l.map (fun p => p.1)).foldr max 0 + 1

/-- `TCLI()`: a fresh object with default fields and its own fresh
(empty) `TextBuffer`. -/
def newTcli (h : Heap) : Heap × Nat :=
  let bid := freshKey h.bufs
  let oid := freshKey h.objs
  ({ objs := ainsert h.objs oid { fields := initTcliFields, buffers := bid },
     bufs := ainsert h.bufs bid ([] : BufStore) }, oid)

/-- `TCLI.__copy__`: a fresh child object whose fields are value-copied
from the parent and whose `buffers` reference is the parent's — the
child's own fresh store is left behind, exactly as
`tcli_obj.buffers = self.buffers` overwrites it. -/
def copyTcli (h : Heap) (pid : Nat) : Option (Heap × Nat) :=
  match alookup h.objs pid with
  | none => none
  | some parent =>
      let fresh := newTcli h
      let child : TcliObj :=
        { fields := copyFields parent.fields, buffers := parent.buffers }
      some ({ fresh.1 with objs := ainsert fresh.1.objs fresh.2 child },
        fresh.2)

/-- `DISPLAY_FORMATS` (tcli_lib.py line 77). -/
def DISPLAY_FORMATS : List String := ["raw", "csv", "tbl", "nvp"]

/-- Integer parsing for `int(args[0])` in `_CmdTimeout` (optional sign,
decimal digits; Python also strips whitespace, not needed here). -/
def parseIntChars (l : List Char) : Option Int :=
  let digits := fun (ds : List Char) =>
    if ds.isEmpty then (none : Option Nat)
    else if ds.all (fun c => c.isDigit) then
      some (ds.foldl (fun acc c => acc * 10 + (c.toNat - '0'.toNat)) 0)
    else none
  match l with
  | '-' :: ds => (digits ds).map (fun n => -(n : Int))
  | ds => (digits ds).map (fun n => (n : Int))

/-- `TCLI._CmdDisplay` run on object `oid`: no argument only reports;
a known format is assigned to `self.display`; an unknown one raises
`ValueError`, which `TildeCmd` catches — state unchanged. -/
def _CmdDisplay (h : Heap) (oid : Nat) (args : List String) : Option Heap :=
  match alookup h.objs oid with
  | none => none
  | some obj =>
      match args with
      | [] => some h
      | fmt :: _ =>
          if fmt ∈ DISPLAY_FORMATS then
            let obj' : TcliObj :=
              { obj with fields := { obj.fields with display := some fmt } }
            some { h with objs := ainsert h.objs oid obj' }
          else some h

/-- `TCLI._CmdTimeout` run on object `oid`: a positive integer argument
is assigned to `self.timeout`; anything else raises `ValueError`,
caught upstream — state unchanged. -/
def _CmdTimeout (h : Heap) (oid : Nat) (args : List String) : Option Heap :=
  match alookup h.objs oid with
  | none => none
  | some obj =>
      match args with
      | [] => some h
      | a :: _ =>
          match parseIntChars a.toList with
          | some i =>
              if 0 < i then
                let obj' : TcliObj :=
                  { obj with fields := { obj.fields with timeout := some i } }
                some { h with objs := ainsert h.objs oid obj' }
              else some h
          | none => some h

/-- `self.buffers.Append(buf, text)` run on object `oid`: writes through
the object's (shared) buffer reference. -/
def buffersAppend (h : Heap) (oid : Nat) (name line : String) :
    Option Heap :=
  match alookup h.objs oid with
  | none => none
  | some obj =>
      match alookup h.bufs obj.buffers with
      | none => none
      | some store =>
          let store' := TextBufferAppend store name line
          some { h with bufs := ainsert h.bufs obj.buffers store' }

/-- One overlay action: an inline override handler mutating the overlay
object, or a buffer write through the shared store. -/
inductive OverlayOp where
  | cmdDisplay (args : List String)
  | cmdTimeout (args : List String)
  | bufAppend (name line : String)
  deriving DecidableEq, Repr

def applyOp (h : Heap) (oid : Nat) : OverlayOp → Option Heap
  | .cmdDisplay args => _CmdDisplay h oid args
  | .cmdTimeout args => _CmdTimeout h oid args
  | .bufAppend name line => buffersAppend h oid name line

/-- The overlay executes its extracted overrides and the dispatched body
as a sequence of actions against the child object. -/
def runOps (h : Heap) (oid : Nat) : List OverlayOp → Option Heap
  | [] => some h
  | op :: ops =>
      match applyOp h oid op with
      | none => none
      | some h' => runOps h' oid ops

theorem le_foldr_max (ks : List Nat) (k : Nat) (hk : k ∈ ks) :
    k ≤ ks.foldr max 0 := by
  induction ks with
  | nil => simp at hk
  | cons x xs ih =>
      rcases List.mem_cons.mp hk with h | h
      · subst h; exact le_max_left _ _
      · exact le_trans (ih h) (le_max_right _ _)

theorem alookup_lt_freshKey {β : Type} (l : List (Nat × β)) (k : Nat)
    (v : β) (h : alookup l k = some v) : k < freshKey l := by
  have hmem : k ∈ l.map (fun p => p.1) := by
    induction l with
    | nil => simp [alookup] at h
    | cons hd tl ih =>
        obtain ⟨k₀, w⟩ := hd
        by_cases hk : k₀ = k
        · simp [hk]
        · simp only [alookup, if_neg hk] at h
          simp [ih h]
  unfold freshKey
  have := le_foldr_max _ _ hmem
  omega

/-- The frame property of one overlay step relative to object `oid`:
every other object is untouched, and `oid` keeps its buffer
reference. -/
def FrameOK (h h' : Heap) (oid : Nat) : Prop :=
  (∀ q, q ≠ oid → alookup h'.objs q = alookup h.objs q) ∧
  (∀ obj, alookup h.objs oid = some obj →
    ∃ obj', alookup h'.objs oid = some obj' ∧ obj'.buffers = obj.buffers)

theorem FrameOK_refl (h : Heap) (oid : Nat) : FrameOK h h oid :=
  ⟨fun _ _ => rfl, fun o ho => ⟨o, ho, rfl⟩⟩

theorem FrameOK_trans (h h₁ h₂ : Heap) (oid : Nat)
    (a : FrameOK h h₁ oid) (b : FrameOK h₁ h₂ oid) : FrameOK h h₂ oid := by
  refine ⟨fun q hq => (b.1 q hq).trans (a.1 q hq), fun obj hobj => ?_⟩
  obtain ⟨o₁, ho₁, hb₁⟩ := a.2 obj hobj
  obtain ⟨o₂, ho₂, hb₂⟩ := b.2 o₁ ho₁
  exact ⟨o₂, ho₂, hb₂.trans hb₁⟩

theorem FrameOK_update (h : Heap) (oid : Nat) (obj newObj : TcliObj)
    (hobj : alookup h.objs oid = some obj)
    (hbuf : newObj.buffers = obj.buffers) :
    FrameOK h { h with objs := ainsert h.objs oid newObj } oid := by
  refine ⟨fun q hq =>
    alookup_ainsert_ne _ _ _ _ (fun hc => hq hc.symm), fun o ho => ?_⟩
  refine ⟨newObj, alookup_ainsert_self _ _ _, ?_⟩
  rw [hobj] at ho
  injection ho with hh
  rw [hbuf, hh]

theorem FrameOK_bufs (h : Heap) (oid : Nat) (bufs' : List (Nat × BufStore)) :
    FrameOK h { h with bufs := bufs' } oid :=
  ⟨fun _ _ => rfl, fun o ho => ⟨o, ho, rfl⟩⟩

theorem applyOp_frame (h : Heap) (oid : Nat) (op : OverlayOp) (h' : Heap)
    (happ : applyOp h oid op = some h') : FrameOK h h' oid := by
  cases op with
  | cmdDisplay args =>
      unfold applyOp _CmdDisplay at happ
      cases hobj : alookup h.objs oid with
      | none => rw [hobj] at happ; exact Option.noConfusion happ
      | some obj =>
          rw [hobj] at happ
          cases args with
          | nil =>
              simp only [Option.some.injEq] at happ
              exact happ ▸ FrameOK_refl h oid
          | cons fmt rest =>
              by_cases hin : fmt ∈ DISPLAY_FORMATS
              · simp only [hin, if_true, Option.some.injEq] at happ
                exact happ ▸ FrameOK_update h oid obj _ hobj rfl
              · simp only [hin, if_false, Option.some.injEq] at happ
                exact happ ▸ FrameOK_refl h oid
  | cmdTimeout args =>
      unfold applyOp _CmdTimeout at happ
      cases hobj : alookup h.objs oid with
      | none => rw [hobj] at happ; exact Option.noConfusion happ
      | some obj =>
          rw [hobj] at happ
          dsimp only at happ
          cases args with
          | nil =>
              simp only [Option.some.injEq] at happ
              exact happ ▸ FrameOK_refl h oid
          | cons a rest =>
              dsimp only at happ
              cases hint : parseIntChars a.toList with
              | none =>
                  rw [hint] at happ
                  simp only [Option.some.injEq] at happ
                  exact happ ▸ FrameOK_refl h oid
              | some i =>
                  rw [hint] at happ
                  by_cases hpos : 0 < i
                  · simp only [hpos, if_true, Option.some.injEq] at happ
                    exact happ ▸ FrameOK_update h oid obj _ hobj rfl
                  · simp only [hpos, if_false, Option.some.injEq] at happ
                    exact happ ▸ FrameOK_refl h oid
  | bufAppend name line =>
      unfold applyOp buffersAppend at happ
      cases hobj : alookup h.objs oid with
      | none => rw [hobj] at happ; exact Option.noConfusion happ
      | some obj =>
          rw [hobj] at happ
          dsimp only at happ
          cases hstore : alookup h.bufs obj.buffers with
          | none => rw [hstore] at happ; exact Option.noConfusion happ
          | some store =>
              rw [hstore] at happ
              simp only [Option.some.injEq] at happ
              exact happ ▸ FrameOK_bufs h oid _

theorem runOps_frame (ops : List OverlayOp) :
    ∀ h oid h', runOps h oid ops = some h' → FrameOK h h' oid := by
  induction ops with
  | nil =>
      intro h oid h' hrun
      simp only [runOps, Option.some.injEq] at hrun
      exact hrun ▸ FrameOK_refl h oid
  | cons op ops ih =>
      intro h oid h' hrun
      unfold runOps at hrun
      cases happ : applyOp h oid op with
      | none => rw [happ] at hrun; exact Option.noConfusion hrun
      | some h₁ =>
          rw [happ] at hrun
          exact FrameOK_trans h h₁ h' oid (applyOp_frame h oid op h₁ happ)
            (ih h₁ oid h' hrun)

/-- C9: after `copy.copy` builds the overlay and the overlay executes
any sequence of override handlers and buffer writes, the parent object
is exactly as before — every value-copied display/format/timeout field
holds its old value — while the overlay object still references the
parent's buffer store, so every write it made through that shared store
is visible from the parent.  Discarding the overlay is dropping `cid`. -/
theorem overlay_session_preserves_parent_shares_buffers
    (h : Heap) (pid : Nat) (parent : TcliObj) (h₁ : Heap) (cid : Nat)
    (ops : List OverlayOp) (h₂ : Heap)
    (hpar : alookup h.objs pid = some parent)
    (hcopy : copyTcli h pid = some (h₁, cid))
    (hrun : runOps h₁ cid ops = some h₂) :
    cid ≠ pid ∧
    alookup h₂.objs pid = some parent ∧
    ∃ child, alookup h₂.objs cid = some child ∧
      child.buffers = parent.buffers := by
  unfold copyTcli at hcopy
  rw [hpar] at hcopy
  simp only [Option.some.injEq, Prod.mk.injEq] at hcopy
  obtain ⟨hh₁, hcid⟩ := hcopy
  have hlt : pid < freshKey h.objs := alookup_lt_freshKey h.objs pid parent hpar
  have hfk : (newTcli h).2 = freshKey h.objs := rfl
  have hne₂ : (newTcli h).2 ≠ pid := by rw [hfk]; omega
  have hne : cid ≠ pid := by rw [← hcid]; exact hne₂
  have hobjs1 : (newTcli h).1.objs = ainsert h.objs (freshKey h.objs)
      { fields := initTcliFields, buffers := freshKey h.bufs } := rfl
  have hpar₁ : alookup h₁.objs pid = some parent := by
    rw [← hh₁]
    dsimp only
    rw [alookup_ainsert_ne _ _ _ _ hne₂, hobjs1,
      alookup_ainsert_ne _ _ _ _ (by omega : freshKey h.objs ≠ pid)]
    exact hpar
  have hchild₁ : alookup h₁.objs cid =
      some { fields := copyFields parent.fields, buffers := parent.buffers } := by
    rw [← hcid, ← hh₁]
    dsimp only
    exact alookup_ainsert_self _ _ _
  obtain ⟨hframe, hself⟩ := runOps_frame ops h₁ cid h₂ hrun
  refine ⟨hne, ?_, ?_⟩
  · rw [hframe pid (fun hc => hne hc.symm)]
    exact hpar₁
  · obtain ⟨child, hc₁, hc₂⟩ := hself _ hchild₁
    exact ⟨child, hc₁, hc₂⟩

/-- A concrete parent heap for the C9 witness: object 0 with `display`
set to `raw` and buffer store 7. -/
def c9Heap : Heap :=
  { objs := [(0, { fields := { initTcliFields with display := some "raw" },
                   buffers := 7 })],
    bufs := [(7, ([] : BufStore))] }

def c9Parent : TcliObj :=
  { fields := { initTcliFields with display := some "raw" }, buffers := 7 }

def c9Copy : Heap × Nat := (copyTcli c9Heap 0).getD (c9Heap, 0)

def c9Ops : List OverlayOp :=
  [.cmdDisplay ["csv"], .bufAppend "log" "hello", .cmdTimeout ["30"]]

def c9Final : Heap := (runOps c9Copy.1 c9Copy.2 c9Ops).getD c9Copy.1

/-- Witness for C9: the overlay switches its own display to `csv`, sets
its own timeout, and writes `hello` into buffer `log` through the
shared store; afterwards the parent object still reads
`display = raw`, `timeout = none`, yet its buffer reference shows the
written line. -/
theorem overlay_session_preserves_parent_witness :
    alookup c9Heap.objs 0 = some c9Parent ∧
    copyTcli c9Heap 0 = some (c9Copy.1, c9Copy.2) ∧
    runOps c9Copy.1 c9Copy.2 c9Ops = some c9Final ∧
    (c9Copy.2 ≠ 0 ∧
     alookup c9Final.objs 0 = some c9Parent ∧
     ∃ child, alookup c9Final.objs c9Copy.2 = some child ∧
       child.buffers = c9Parent.buffers) ∧
    (∃ child, alookup c9Final.objs c9Copy.2 = some child ∧
       child.fields.display = some "csv" ∧
       child.fields.timeout = some 30) ∧
    alookup c9Final.bufs c9Parent.buffers = some [("log", "hello")] :=
  ⟨by decide, by decide, by decide,
    overlay_session_preserves_parent_shares_buffers c9Heap 0 c9Parent
      c9Copy.1 c9Copy.2 c9Ops c9Final (by decide) (by decide) (by decide),
    by decide, by decide⟩

end Tcli
